import Mathlib

/-!
Verification development for the TM_ELO rating system
(player_manager.py / race_manager.py).

The Python code is shallowly embedded: player records and the ledgers are
association lists from string identifiers to records, Python floats are
modelled as real numbers, and Python's builtin `round` (round half to even)
is modelled by `pyround`.
-/

namespace TMElo

set_option maxRecDepth 10000

/-! ### Python's builtin round: round half to even -/

/-- Model of Python's builtin `round` on a real number: nearest integer,
ties (fractional part exactly 1/2) go to the even neighbour. -/
noncomputable def pyround (x : ℝ) : ℤ :=
  if Int.fract x = 1/2 then (if Even ⌊x⌋ then ⌊x⌋ else ⌊x⌋ + 1) else round x

theorem pyround_eq_round {x : ℝ} (h : Int.fract x ≠ 1/2) : pyround x = round x := by
  rw [pyround, if_neg h]

theorem pyround_tie {x : ℝ} (h : Int.fract x = 1/2) :
    pyround x = if Even ⌊x⌋ then ⌊x⌋ else ⌊x⌋ + 1 := by
  rw [pyround, if_pos h]

theorem pyround_intCast (n : ℤ) : pyround (n : ℝ) = n := by
  have h : Int.fract (n : ℝ) = 0 := Int.fract_intCast n
  rw [pyround_eq_round (by rw [h]; norm_num), round_intCast]

theorem fract_half : Int.fract (1/2 : ℝ) = 1/2 :=
  Int.fract_eq_self.mpr (by norm_num)

theorem floor_half : ⌊(1/2 : ℝ)⌋ = 0 := by
  rw [Int.floor_eq_zero_iff]
  constructor <;> norm_num

theorem eq_floor_add_half {x : ℝ} (h : Int.fract x = 1/2) : x = (⌊x⌋ : ℝ) + 1/2 := by
  have := Int.fract_add_floor x
  rw [h] at this
  linarith

theorem round_tie {x : ℝ} (h : Int.fract x = 1/2) : round x = ⌊x⌋ + 1 := by
  have hx : x + 1/2 = ((⌊x⌋ + 1 : ℤ) : ℝ) := by
    have := eq_floor_add_half h
    push_cast
    linarith
  rw [round_eq, hx, Int.floor_intCast]

/-- On an exact half-integer, pyround picks the even neighbour. -/
theorem pyround_add_half (k : ℤ) : pyround ((k : ℝ) + 1/2) = if Even k then k else k + 1 := by
  have hfr : Int.fract ((k : ℝ) + 1/2) = 1/2 := by
    rw [Int.fract_int_add, fract_half]
  have hfl : ⌊(k : ℝ) + 1/2⌋ = k := by
    rw [Int.floor_int_add, floor_half, add_zero]
  rw [pyround_tie hfr, hfl]

/-- When the fractional part is not 1/2, rounding lands strictly within 1/2. -/
theorem abs_round_sub_lt {x : ℝ} (h : Int.fract x ≠ 1/2) :
    |(round x : ℝ) - x| < 1/2 := by
  rw [abs_lt, round_eq]
  refine ⟨?_, ?_⟩
  · have h1 : x + 1/2 < ⌊x + 1/2⌋ + 1 := Int.lt_floor_add_one _
    linarith
  · have h2 : (⌊x + 1/2⌋ : ℝ) ≤ x + 1/2 := Int.floor_le _
    rcases lt_or_eq_of_le h2 with h3 | h3
    · linarith
    · exfalso; apply h
      have hx : x = ((⌊x + 1/2⌋ - 1 : ℤ) : ℝ) + 1/2 := by push_cast; linarith
      rw [hx, Int.fract_int_add, fract_half]

/-- If y lies strictly within 1/2 of the integer n, pyround y = n. -/
theorem pyround_eq_of_abs_lt {n : ℤ} {y : ℝ} (h1 : (n : ℝ) - 1/2 < y)
    (h2 : y < (n : ℝ) + 1/2) : pyround y = n := by
  have hfr : Int.fract y ≠ 1/2 := by
    intro hfr
    have hy := eq_floor_add_half hfr
    have hl : (n : ℝ) - 1 < (⌊y⌋ : ℝ) := by rw [hy] at h1; linarith
    have hr : (⌊y⌋ : ℝ) < (n : ℝ) := by rw [hy] at h2; linarith
    have hl' : n - 1 < ⌊y⌋ := by exact_mod_cast hl
    have hr' : ⌊y⌋ < n := by exact_mod_cast hr
    omega
  rw [pyround_eq_round hfr, round_eq, Int.floor_eq_iff]
  constructor <;> [skip; push_cast] <;> linarith

theorem pyround_le_round (x : ℝ) : pyround x ≤ round x := by
  by_cases h : Int.fract x = 1/2
  · rw [pyround_tie h, round_tie h]
    split <;> omega
  · rw [pyround_eq_round h]

theorem round_sub_one_le_pyround (x : ℝ) : round x - 1 ≤ pyround x := by
  by_cases h : Int.fract x = 1/2
  · rw [pyround_tie h, round_tie h]
    split <;> omega
  · rw [pyround_eq_round h]; omega

theorem round_mono_real {x y : ℝ} (h : x ≤ y) : round x ≤ round y := by
  rw [round_eq, round_eq]
  exact Int.floor_le_floor (by linarith)

/-- Apply-then-revert arithmetic: committing `round(n + c)` and then
reverting by `round(committed - c)` restores n, unless n + c was an exact
half-integer while n is odd. -/
theorem pyround_roundtrip (n : ℤ) (c : ℝ)
    (h : ¬(Int.fract ((n : ℝ) + c) = 1/2 ∧ Odd n)) :
    pyround ((pyround ((n : ℝ) + c) : ℝ) - c) = n := by
  set x := (n : ℝ) + c with hx
  have hval : (pyround x : ℝ) - c = (n : ℝ) + ((pyround x : ℝ) - x) := by
    rw [hx]; ring
  by_cases hfr : Int.fract x = 1/2
  · have hev : Even n := by
      rcases Int.even_or_odd n with he | ho
      · exact he
      · exact absurd ⟨hfr, ho⟩ h
    have hxf := eq_floor_add_half hfr
    rw [pyround_tie hfr]
    by_cases hef : Even ⌊x⌋
    · rw [if_pos hef] at *
      have hv : (⌊x⌋ : ℝ) - c = ((n - 1 : ℤ) : ℝ) + 1/2 := by
        push_cast
        rw [hx] at hxf
        linarith
      rw [hv, pyround_add_half]
      have : ¬ Even (n - 1) := by
        rcases hev with ⟨k, hk⟩
        intro ⟨m, hm⟩
        omega
      rw [if_neg this]
      omega
    · rw [if_neg hef] at *
      have hv : ((⌊x⌋ + 1 : ℤ) : ℝ) - c = (n : ℝ) + 1/2 := by
        push_cast
        rw [hx] at hxf
        linarith
      rw [hv, pyround_add_half, if_pos hev]
  · rw [pyround_eq_round hfr]
    have habs := abs_round_sub_lt hfr
    rw [abs_lt] at habs
    have hval2 : (round x : ℝ) - c = (n : ℝ) + ((round x : ℝ) - x) := by rw [hx]; ring
    have h1 : (n : ℝ) - 1/2 < (round x : ℝ) - c := by rw [hval2]; linarith
    have h2 : (round x : ℝ) - c < (n : ℝ) + 1/2 := by rw [hval2]; linarith
    exact pyround_eq_of_abs_lt h1 h2

theorem pyround_mono {x y : ℝ} (h : x ≤ y) : pyround x ≤ pyround y := by
  rcases eq_or_lt_of_le h with rfl | hlt
  · exact le_refl _
  by_cases hy : Int.fract y = 1/2
  · have hyv := eq_floor_add_half hy
    have hpy : ⌊y⌋ ≤ pyround y := by
      rw [pyround_tie hy]
      split <;> omega
    have hrx : round x ≤ ⌊y⌋ := by
      rw [round_eq]
      have hxy : x + 1/2 < (⌊y⌋ : ℝ) + 1 := by rw [hyv] at hlt; linarith
      have hfl := Int.floor_le_floor (le_of_lt hxy)
      have : ⌊(⌊y⌋ : ℝ) + 1⌋ = ⌊y⌋ + 1 := by
        rw [show ((⌊y⌋ : ℝ) + 1) = ((⌊y⌋ + 1 : ℤ) : ℝ) by push_cast; ring, Int.floor_intCast]
      rw [this] at hfl
      have hne : ⌊x + 1/2⌋ ≠ ⌊y⌋ + 1 := by
        intro he
        have : (⌊y⌋ : ℝ) + 1 ≤ x + 1/2 := by
          calc (⌊y⌋ : ℝ) + 1 = ((⌊y⌋ + 1 : ℤ) : ℝ) := by push_cast; ring
            _ = ((⌊x + 1/2⌋ : ℤ) : ℝ) := by rw [he]
            _ ≤ x + 1/2 := Int.floor_le _
        linarith
      omega
    calc pyround x ≤ round x := pyround_le_round x
      _ ≤ ⌊y⌋ := hrx
      _ ≤ pyround y := hpy
  · rw [pyround_eq_round hy]
    calc pyround x ≤ round x := pyround_le_round x
      _ ≤ round y := round_mono_real h

/-! ### Python dicts as association lists

Python dicts keyed by strings are modelled as association lists in
insertion order. Assignment replaces in place when the key is present and
appends otherwise, matching dict semantics. -/

section Dict

variable {α : Type}

/-- Lookup `d[k]`: value of the first pair with the given key. -/
def dictGet (l : List (String × α)) (k : String) : Option α :=
  (l.find? (fun p => p.1 == k)).map (fun p => p.2)

/-- Membership test `k in d`. -/
def dictHas (l : List (String × α)) (k : String) : Bool :=
  l.any (fun p => p.1 == k)

/-- Assignment `d[k] = v`. -/
def dictSet (l : List (String × α)) (k : String) (v : α) : List (String × α) :=
  if dictHas l k then l.map (fun p => if p.1 == k then (k, v) else p)
  else l ++ [(k, v)]

/-- Deletion `del d[k]`. -/
def dictDel (l : List (String × α)) (k : String) : List (String × α) :=
  l.filter (fun p => !(p.1 == k))

/-- Construction of a dict from a sequence of assignments (later
assignments to the same key overwrite earlier ones). -/
def pyDict (l : List (String × α)) : List (String × α) :=
  l.foldl (fun acc p => dictSet acc p.1 p.2) []

/-- In-place mutation of the record stored at a key. -/
def dictModify (l : List (String × α)) (k : String) (f : α → α) : List (String × α) :=
  l.map (fun p => if p.1 == k then (p.1, f p.2) else p)

def dictKeys (l : List (String × α)) : List String := l.map Prod.fst

theorem dictGet_nil (k : String) : dictGet ([] : List (String × α)) k = none := rfl

theorem dictGet_cons (p : String × α) (l : List (String × α)) (k : String) :
    dictGet (p :: l) k = if p.1 = k then some p.2 else dictGet l k := by
  by_cases h : p.1 = k
  · rw [if_pos h, dictGet, List.find?_cons_of_pos _ (by simp [h])]
    rfl
  · rw [if_neg h, dictGet, List.find?_cons_of_neg _ (by simp [h]), dictGet]

theorem dictGet_eq_none_iff (l : List (String × α)) (k : String) :
    dictGet l k = none ↔ k ∉ dictKeys l := by
  induction l with
  | nil => simp [dictGet_nil, dictKeys]
  | cons p rest ih =>
    rw [dictGet_cons, dictKeys, List.map_cons, List.mem_cons]
    by_cases h : p.1 = k
    · simp [h]
    · rw [if_neg h, ih, dictKeys]
      have h2 : ¬ k = p.1 := fun he => h he.symm
      simp [h2]

theorem dictGet_mem {l : List (String × α)} {k : String} {v : α}
    (h : dictGet l k = some v) : (k, v) ∈ l := by
  induction l with
  | nil => simp [dictGet_nil] at h
  | cons p rest ih =>
    obtain ⟨a, b⟩ := p
    rw [dictGet_cons] at h
    by_cases hp : a = k
    · rw [if_pos hp] at h
      injection h with h2
      simp only at hp h2
      subst hp
      subst h2
      exact List.mem_cons_self _ _
    · rw [if_neg hp] at h
      exact List.mem_cons_of_mem _ (ih h)

theorem dictGet_of_mem {l : List (String × α)} {k : String} {v : α}
    (hnd : (dictKeys l).Nodup) (h : (k, v) ∈ l) : dictGet l k = some v := by
  induction l with
  | nil => simp at h
  | cons p rest ih =>
    rw [dictKeys, List.map_cons, List.nodup_cons] at hnd
    rcases List.mem_cons.mp h with he | hmem
    · rw [← he, dictGet_cons, if_pos rfl]
    · rw [dictGet_cons]
      have hk : p.1 ≠ k := by
        intro hc
        exact hnd.1 (hc ▸ (List.mem_map.mpr ⟨(k, v), hmem, rfl⟩))
      rw [if_neg hk]
      exact ih hnd.2 hmem

/-- With nodup keys, lookups agree across permutations of an assoc list. -/
theorem dictGet_perm {l l' : List (String × α)} (hp : l.Perm l')
    (hnd : (dictKeys l).Nodup) (k : String) : dictGet l k = dictGet l' k := by
  have hnd' : (dictKeys l').Nodup := (hp.map Prod.fst).nodup_iff.mp hnd
  cases hv : dictGet l k with
  | none =>
    rw [dictGet_eq_none_iff] at hv
    symm
    rw [dictGet_eq_none_iff]
    intro hmem
    exact hv ((hp.map Prod.fst).mem_iff.mpr hmem)
  | some v =>
    exact (dictGet_of_mem hnd' (hp.mem_iff.mp (dictGet_mem hv))).symm

theorem dictHas_iff (l : List (String × α)) (k : String) :
    dictHas l k = true ↔ k ∈ dictKeys l := by
  simp [dictHas, dictKeys, List.any_eq_true, List.mem_map, beq_iff_eq]

theorem dictSet_notMem {l : List (String × α)} {k : String} (h : k ∉ dictKeys l)
    (v : α) : dictSet l k v = l ++ [(k, v)] := by
  rw [dictSet, if_neg]
  intro hc
  exact h ((dictHas_iff l k).mp hc)

theorem foldl_dictSet_fresh (l : List (String × α)) : ∀ acc : List (String × α),
    (dictKeys (acc ++ l)).Nodup →
    l.foldl (fun acc p => dictSet acc p.1 p.2) acc = acc ++ l := by
  induction l with
  | nil => intro acc _; simp
  | cons p rest ih =>
    intro acc hacc
    have hkeys : dictKeys (acc ++ p :: rest) = dictKeys acc ++ (p.1 :: dictKeys rest) := by
      simp [dictKeys]
    rw [hkeys] at hacc
    obtain ⟨nd1, nd2, disj⟩ := List.nodup_append.mp hacc
    have hnotin : p.1 ∉ dictKeys acc := fun hc => disj hc (List.mem_cons_self _ _)
    rw [List.foldl_cons, dictSet_notMem hnotin]
    have hacc2 : (dictKeys ((acc ++ [(p.1, p.2)]) ++ rest)).Nodup := by
      have he : dictKeys ((acc ++ [(p.1, p.2)]) ++ rest)
          = dictKeys acc ++ (p.1 :: dictKeys rest) := by
        simp [dictKeys]
      rw [he]
      exact hacc
    rw [ih (acc ++ [(p.1, p.2)]) hacc2]
    simp

/-- Building a dict from pairs with nodup keys returns the pairs unchanged. -/
theorem pyDict_eq_self {l : List (String × α)} (hnd : (dictKeys l).Nodup) :
    pyDict l = l := by
  rw [pyDict, foldl_dictSet_fresh l [] (by simpa using hnd)]
  simp

end Dict

/-! ### Finish positions and the Python sort in add_race

A finish position is either an int or the string sentinel for
did-not-finish. Python's `list.sort(key=lambda x: x[1])` compares the
positions with `<`; comparing an int with a str raises TypeError, modelled
by a partial comparison returning `none`. -/

/-- Loosely-typed finish position: an int, or the DNF string sentinel. -/
inductive Pos where
  | num : ℤ → Pos
  | dnf : Pos
deriving DecidableEq, Repr

/-- Python's `<` on positions: defined within ints (and within strings,
where the only string is the DNF sentinel), TypeError across types. -/
def pyLtPos : Pos → Pos → Option Bool
  | Pos.num a, Pos.num b => some (decide (a < b))
  | Pos.dnf, Pos.dnf => some false
  | _, _ => none

/-- Whether a position is the DNF sentinel (the runtime type tag of the
loosely-typed position value). -/
def isDnf : Pos → Bool
  | Pos.dnf => true
  | Pos.num _ => false

/-- Stable insertion into an already sorted list, comparing with Python's
partial `<`: insert x before the first element y with not (y < x). -/
def pyInsert (x : String × Pos) : List (String × Pos) → Option (List (String × Pos))
  | [] => some [x]
  | y :: ys =>
    match pyLtPos y.2 x.2 with
    | none => none
    | some true => (pyInsert x ys).map (fun zs => y :: zs)
    | some false => some (x :: y :: ys)

/-- Model of Python's `race_results.sort(key=lambda x: x[1])`: a stable
comparison sort that raises (returns none) as soon as an int position is
compared against the DNF string. -/
def pySortByPos : List (String × Pos) → Option (List (String × Pos))
  | [] => some []
  | x :: xs => (pySortByPos xs).bind (pyInsert x)

theorem pyLtPos_same_type {a b : Pos} (h : isDnf a = isDnf b) :
    ∃ r, pyLtPos a b = some r := by
  cases a <;> cases b
  · exact ⟨_, rfl⟩
  · exact absurd h (by simp [isDnf])
  · exact absurd h (by simp [isDnf])
  · exact ⟨false, rfl⟩

theorem pyLtPos_mixed {a b : Pos} (h : isDnf a ≠ isDnf b) :
    pyLtPos a b = none := by
  cases a <;> cases b
  · exact absurd rfl h
  · rfl
  · rfl
  · exact absurd rfl h

theorem pyInsert_mixed_head {x y : String × Pos} (ys : List (String × Pos))
    (h : isDnf x.2 ≠ isDnf y.2) : pyInsert x (y :: ys) = none := by
  rw [pyInsert, pyLtPos_mixed (fun he => h he.symm)]

theorem pyInsert_mem {x : String × Pos} {l s : List (String × Pos)}
    (h : pyInsert x l = some s) : ∀ z ∈ s, z = x ∨ z ∈ l := by
  induction l generalizing s with
  | nil =>
    rw [pyInsert] at h
    injection h with h
    subst h
    simp
  | cons y ys ih =>
    rw [pyInsert] at h
    cases hc : pyLtPos y.2 x.2 with
    | none => rw [hc] at h; exact absurd h (by simp)
    | some b =>
      rw [hc] at h
      cases b with
      | true =>
        cases hi : pyInsert x ys with
        | none => rw [hi] at h; exact absurd h (by simp)
        | some zs =>
          rw [hi] at h
          have h2 : some (y :: zs) = some s := h
          injection h2 with h2
          subst h2
          intro z hz
          rcases List.mem_cons.mp hz with rfl | hz2
          · right; exact List.mem_cons_self _ _
          · rcases ih hi z hz2 with hx | hmem
            · exact Or.inl hx
            · exact Or.inr (List.mem_cons_of_mem _ hmem)
      | false =>
        injection h with h
        subst h
        intro z hz
        rcases List.mem_cons.mp hz with rfl | hz2
        · exact Or.inl rfl
        · exact Or.inr hz2

theorem pyInsert_self_mem {x : String × Pos} {l s : List (String × Pos)}
    (h : pyInsert x l = some s) : x ∈ s := by
  induction l generalizing s with
  | nil =>
    rw [pyInsert] at h
    injection h with h
    subst h
    simp
  | cons y ys ih =>
    rw [pyInsert] at h
    cases hc : pyLtPos y.2 x.2 with
    | none => rw [hc] at h; exact absurd h (by simp)
    | some b =>
      rw [hc] at h
      cases b with
      | true =>
        cases hi : pyInsert x ys with
        | none => rw [hi] at h; exact absurd h (by simp)
        | some zs =>
          rw [hi] at h
          have h2 : some (y :: zs) = some s := h
          injection h2 with h2
          subst h2
          exact List.mem_cons_of_mem _ (ih hi)
      | false =>
        injection h with h
        subst h
        exact List.mem_cons_self _ _

theorem pyInsert_mono {x : String × Pos} {l s : List (String × Pos)}
    (h : pyInsert x l = some s) : ∀ z ∈ l, z ∈ s := by
  induction l generalizing s with
  | nil => simp
  | cons y ys ih =>
    rw [pyInsert] at h
    cases hc : pyLtPos y.2 x.2 with
    | none => rw [hc] at h; exact absurd h (by simp)
    | some b =>
      rw [hc] at h
      cases b with
      | true =>
        cases hi : pyInsert x ys with
        | none => rw [hi] at h; exact absurd h (by simp)
        | some zs =>
          rw [hi] at h
          have h2 : some (y :: zs) = some s := h
          injection h2 with h2
          subst h2
          intro z hz
          rcases List.mem_cons.mp hz with rfl | hz2
          · exact List.mem_cons_self _ _
          · exact List.mem_cons_of_mem _ (ih hi z hz2)
      | false =>
        injection h with h
        subst h
        intro z hz
        exact List.mem_cons_of_mem _ hz

theorem pyInsert_homog {x : String × Pos} {l s : List (String × Pos)}
    (h : pyInsert x l = some s) (hl : ∀ z ∈ l, isDnf z.2 = isDnf x.2) :
    ∀ z ∈ s, isDnf z.2 = isDnf x.2 := by
  intro z hz
  rcases pyInsert_mem h z hz with rfl | hmem
  · rfl
  · exact hl z hmem

theorem pyInsert_some_of_homog (x : String × Pos) (l : List (String × Pos))
    (hl : ∀ z ∈ l, isDnf z.2 = isDnf x.2) : ∃ s, pyInsert x l = some s := by
  induction l with
  | nil => exact ⟨[x], rfl⟩
  | cons y ys ih =>
    have hy : isDnf y.2 = isDnf x.2 := hl y (List.mem_cons_self _ _)
    obtain ⟨r, hr⟩ := pyLtPos_same_type hy
    obtain ⟨s0, hs0⟩ := ih (fun z hz => hl z (List.mem_cons_of_mem _ hz))
    cases r with
    | true => exact ⟨y :: s0, by rw [pyInsert, hr, hs0]; rfl⟩
    | false => exact ⟨x :: y :: ys, by rw [pyInsert, hr]⟩

/-- A homogeneous results list (all ints, or all DNF) sorts successfully. -/
theorem pySortByPos_some_of_homog (t : Bool) (l : List (String × Pos))
    (hl : ∀ z ∈ l, isDnf z.2 = t) :
    ∃ s, pySortByPos l = some s ∧ ∀ z ∈ s, isDnf z.2 = t := by
  induction l with
  | nil => exact ⟨[], rfl, by simp⟩
  | cons x xs ih =>
    obtain ⟨s0, hs0, hhom⟩ := ih (fun z hz => hl z (List.mem_cons_of_mem _ hz))
    have hx : isDnf x.2 = t := hl x (List.mem_cons_self _ _)
    obtain ⟨s, hs⟩ := pyInsert_some_of_homog x s0 (fun z hz => by rw [hhom z hz, hx])
    refine ⟨s, ?_, ?_⟩
    · rw [pySortByPos, hs0]
      exact hs
    intro z hz
    rcases pyInsert_mem hs z hz with rfl | hmem
    · exact hx
    · exact hhom z hmem

/-- A successful sort has a homogeneous output. -/
theorem pySortByPos_homog {l s : List (String × Pos)}
    (h : pySortByPos l = some s) :
    ∀ z ∈ s, ∀ w ∈ s, isDnf z.2 = isDnf w.2 := by
  induction l generalizing s with
  | nil =>
    rw [pySortByPos] at h
    injection h with h
    subst h
    simp
  | cons x xs ih =>
    rw [pySortByPos] at h
    cases hs0 : pySortByPos xs with
    | none => rw [hs0] at h; exact absurd h (by simp)
    | some s0 =>
      rw [hs0] at h
      have hb : pyInsert x s0 = some s := h
      have hhom0 := ih hs0
      cases s0 with
      | nil =>
        rw [pyInsert] at hb
        injection hb with hb
        subst hb
        simp
      | cons y ys =>
        have hy : isDnf y.2 = isDnf x.2 := by
          by_contra hc
          rw [pyInsert_mixed_head ys (fun he => hc he.symm)] at hb
          exact absurd hb (by simp)
        have hall : ∀ z ∈ y :: ys, isDnf z.2 = isDnf x.2 := by
          intro z hz
          rw [hhom0 z hz y (List.mem_cons_self _ _), hy]
        have hres := pyInsert_homog hb hall
        intro z hz w hw
        rw [hres z hz, hres w hw]

theorem pySortByPos_mem {l s : List (String × Pos)}
    (h : pySortByPos l = some s) : ∀ z ∈ l, z ∈ s := by
  induction l generalizing s with
  | nil => simp
  | cons x xs ih =>
    rw [pySortByPos] at h
    cases hs0 : pySortByPos xs with
    | none => rw [hs0] at h; exact absurd h (by simp)
    | some s0 =>
      rw [hs0] at h
      have hb : pyInsert x s0 = some s := h
      intro z hz
      rcases List.mem_cons.mp hz with rfl | hz2
      · exact pyInsert_self_mem hb
      · exact pyInsert_mono hb z (ih hs0 z hz2)

theorem pyInsert_perm {x : String × Pos} {l s : List (String × Pos)}
    (h : pyInsert x l = some s) : s.Perm (x :: l) := by
  induction l generalizing s with
  | nil =>
    rw [pyInsert] at h
    injection h with h
    subst h
    exact List.Perm.refl _
  | cons y ys ih =>
    rw [pyInsert] at h
    cases hc : pyLtPos y.2 x.2 with
    | none => rw [hc] at h; exact absurd h (by simp)
    | some b =>
      rw [hc] at h
      cases b with
      | true =>
        cases hi : pyInsert x ys with
        | none => rw [hi] at h; exact absurd h (by simp)
        | some zs =>
          rw [hi] at h
          have h2 : some (y :: zs) = some s := h
          injection h2 with h2
          subst h2
          exact ((ih hi).cons y).trans (List.Perm.swap x y ys)
      | false =>
        injection h with h
        subst h
        exact List.Perm.refl _

/-- A successful sort returns a permutation of its input. -/
theorem pySortByPos_perm {l s : List (String × Pos)}
    (h : pySortByPos l = some s) : s.Perm l := by
  induction l generalizing s with
  | nil =>
    rw [pySortByPos] at h
    injection h with h
    subst h
    exact List.Perm.refl _
  | cons x xs ih =>
    rw [pySortByPos] at h
    cases hs0 : pySortByPos xs with
    | none => rw [hs0] at h; exact absurd h (by simp)
    | some s0 =>
      rw [hs0] at h
      have hb : pyInsert x s0 = some s := h
      exact (pyInsert_perm hb).trans ((ih hs0).cons x)

/-- Sorting a list that mixes an int position with a DNF raises TypeError. -/
theorem pySortByPos_mixed_none {l : List (String × Pos)}
    {za zb : String × Pos} (ha : za ∈ l) (hb : zb ∈ l)
    (hmix : isDnf za.2 ≠ isDnf zb.2) : pySortByPos l = none := by
  cases hs : pySortByPos l with
  | none => rfl
  | some s =>
    exact absurd (pySortByPos_homog hs za (pySortByPos_mem hs za ha)
      zb (pySortByPos_mem hs zb hb)) hmix

/-! ### PlayerManager (player_manager.py) -/

/-- One entry of the players dict. Stored Elo values are always written
through round, hence integers. -/
structure PlayerRec where
  world_rank : ℕ
  initial_elo : ℤ
  current_elo : ℤ
  league : String
  races_played : ℤ
deriving DecidableEq, Repr

/-- The players dict. -/
abbrev Players := List (String × PlayerRec)

/-- PlayerManager.get_league: league from an Elo rating. The code calls it
both on unrounded floats and on stored integers, so it takes a real. -/
noncomputable def get_league (elo : ℝ) : String :=
  if 3000 ≤ elo then "Master" else if 1701 ≤ elo then "Champion" else "Academy"

/-- PlayerManager.world_rank_to_elo: logarithmic map from world rank to an
initial rating, clamped below at 800 after rounding. -/
noncomputable def world_rank_to_elo (world_rank : ℕ) : ℤ :=
  max 800 (pyround (4500 - (Real.log world_rank / Real.log 100000) * (4500 - 800)))

/-- PlayerManager.add_player: computes the initial rating and assigns the
record into the players dict; there is no duplicate check, so an existing
identifier is silently overwritten. -/
noncomputable def add_player (players : Players) (player_tag : String)
    (world_rank : ℕ) : Players :=
  let initial_elo := world_rank_to_elo world_rank
  let league := get_league (initial_elo : ℝ)
  dictSet players player_tag
    { world_rank := world_rank
      initial_elo := initial_elo
      current_elo := initial_elo
      league := league
      races_played := 0 }

/-! ### The rating formula (race_manager.py, update_elo_rating) -/

/-- RaceManager.update_elo_rating: the comparative Elo update. Direct
transcription; `10 ** x` on floats is real exponentiation. Lean's real
division is total, so at D = 1 this returns a value where Python raises
ZeroDivisionError; process_race_results_checked below restores that error
path for the statements that depend on it. -/
noncomputable def update_elo_rating (P K_scrims K_matches M_scrims M_matches D R : ℝ)
    (opponent_elos teammate_elos : List ℝ) (S : ℝ) (is_match : Bool) : ℝ :=
  let K := if is_match then K_matches else K_scrims
  let M := if is_match then M_matches else M_scrims
  let D_o : ℝ := opponent_elos.length
  let D_t : ℝ := teammate_elos.length
  let first_term := (D_o + M) * (D - R) / (D - 1)
  let opponent_sum := (opponent_elos.map (fun O => 1 / (1 + (10 : ℝ) ^ ((O - P) / S)))).sum
  let teammate_sum := (teammate_elos.map (fun T => 1 / (1 + (10 : ℝ) ^ ((T - P) / S)))).sum
  let teammate_term := if D_t > 0 then (1 / D_t) * teammate_sum else 0
  P + K * (first_term - opponent_sum - teammate_term)

/-! ### Race processing (race_manager.py, process_race_results) -/

/-- One entry of the participants list built by process_race_results:
resolved tag, effective position, original loosely-typed position, and the
snapshot of the pre-race rating. -/
structure Participant where
  tag : String
  position : ℤ
  original : Pos
  old_elo : ℤ
deriving DecidableEq, Repr

/-- Resolution loop of process_race_results, parametrised by
total_participants = len(race_results) (the raw length, computed before
unknown identifiers are dropped). DNF maps to the raw total; unknown
identifiers are skipped. -/
def mkParticipant (total : ℕ) (r : String × Pos) (rec : PlayerRec) : Participant :=
  { tag := r.1
    position := match r.2 with
      | Pos.dnf => (total : ℤ)
      | Pos.num n => n
    original := r.2
    old_elo := rec.current_elo }

def raceParticipantsAux (players : Players) (total : ℕ)
    (results : List (String × Pos)) : List Participant :=
  results.filterMap (fun r => (dictGet players r.1).map (mkParticipant total r))

/-- The participants list of process_race_results. -/
def raceParticipants (players : Players) (results : List (String × Pos)) :
    List Participant :=
  raceParticipantsAux players results.length results

/-- The Elo change computed for one participant: opponents are all other
participants' snapshotted ratings, D = len(participants), K/M fixed as in
the source, no teammates, S = 400. -/
noncomputable def participantChange (is_match : Bool) (ps : List Participant)
    (p : Participant) : ℝ :=
  let opponent_elos := (ps.filter (fun q => !(q.tag == p.tag))).map
    (fun q => (q.old_elo : ℝ))
  update_elo_rating (p.old_elo : ℝ) 16 32 0 1 (ps.length : ℝ) (p.position : ℝ)
    opponent_elos [] 400 is_match - (p.old_elo : ℝ)

/-- The elo_changes assignments made by the computation loop, in order. -/
noncomputable def raceEloChanges (is_match : Bool) (ps : List Participant) :
    List (String × ℝ) :=
  ps.map (fun p => (p.tag, participantChange is_match ps p))

/-- The commit step of the apply loop for one participant: the stored
rating is the rounded new value, but the league is derived from the
unrounded value. -/
noncomputable def applyRecFn (old : ℤ) (change : ℝ) (rec : PlayerRec) : PlayerRec :=
  { rec with
    current_elo := pyround ((old : ℝ) + change)
    league := get_league ((old : ℝ) + change)
    races_played := rec.races_played + 1 }

/-- Apply loop of process_race_results: iterate participants, look the
change up in the elo_changes dict, and commit. -/
noncomputable def applyAll (changes : List (String × ℝ)) (ps : List Participant)
    (players : Players) : Players :=
  ps.foldl (fun pl p =>
    match dictGet changes p.tag with
    | some c => dictModify pl p.tag (applyRecFn p.old_elo c)
    | none => pl) players

/-- RaceManager.process_race_results: returns the mutated players dict and
the elo_changes dict. -/
noncomputable def process_race_results (players : Players)
    (race_results : List (String × Pos)) (is_match : Bool) :
    Players × List (String × ℝ) :=
  let ps := raceParticipants players race_results
  let changes := pyDict (raceEloChanges is_match ps)
  (applyAll changes ps players, changes)

/-! ### Race ledger (race_manager.py, add_race / delete_race) -/

/-- One entry of the races dict (the literal date string is irrelevant to
the dynamics and is not modelled). -/
structure RaceRec where
  name : String
  results : List (String × Pos)
  elo_changes : List (String × ℝ)
  is_match : Bool

/-- One sub-race of a match. -/
structure SubRace where
  track : String
  results : List (String × Pos)
  elo_changes : List (String × ℝ)

/-- One entry of the matches dict. -/
structure MatchRec where
  name : String
  participants : List String
  league : String
  is_match : Bool
  num_races : ℤ
  status : String
  races : List (String × SubRace)
  current_race : ℤ

/-- The mutable state of a RaceManager: players, races and matches dicts
(scheduled races are not needed by any claim). -/
structure RMState where
  players : Players
  races : List (String × RaceRec)
  matchesD : List (String × MatchRec)

/-- Race identifier generation in add_race: recomputed from the current
size of the races dict. -/
def nextRaceId (st : RMState) : String :=
  "race_" ++ toString (st.races.length + 1)

/-- RaceManager.add_race: sorts the results by position (TypeError on a
mixed list, modelled as none), processes them, and stores the race record
under a freshly generated identifier. -/
noncomputable def add_race (st : RMState) (race_name : String)
    (race_results : List (String × Pos)) (is_match : Bool) : Option RMState :=
  let race_id := nextRaceId st
  match pySortByPos race_results with
  | none => none
  | some sorted =>
    let pr := process_race_results st.players sorted is_match
    let rec0 : RaceRec :=
      { name := race_name, results := sorted, elo_changes := pr.2,
        is_match := is_match }
    some { st with
      players := pr.1
      races := dictSet st.races race_id rec0 }

/-- The revert step of delete_race for one player: subtract the stored
change, round, and re-derive the league from the rounded value. -/
noncomputable def revertRecFn (change : ℝ) (rec : PlayerRec) : PlayerRec :=
  let ncur := pyround ((rec.current_elo : ℝ) - change)
  { rec with
    current_elo := ncur
    league := get_league (ncur : ℝ)
    races_played := rec.races_played - 1 }

/-- Revert loop of delete_race over the stored elo_changes dict; players
no longer present are skipped. -/
noncomputable def revertAll (changes : List (String × ℝ)) (players : Players) :
    Players :=
  changes.foldl (fun pl pc =>
    if dictHas pl pc.1 then dictModify pl pc.1 (revertRecFn pc.2) else pl) players

/-- RaceManager.delete_race: returns False when the race is unknown,
otherwise reverts every stored change and removes the race record. -/
noncomputable def delete_race (st : RMState) (race_id : String) : Bool × RMState :=
  match dictGet st.races race_id with
  | none => (false, st)
  | some race =>
    (true, { st with
      players := revertAll race.elo_changes st.players
      races := dictDel st.races race_id })

/-! ### Match lifecycle (race_manager.py, create_match / add_race_to_match) -/

/-- The match record built by create_match. -/
def createMatchRec (match_name : String) (participants : List String)
    (league : String) (is_match : Bool) : MatchRec :=
  { name := match_name
    participants := participants
    league := league
    is_match := is_match
    num_races := if is_match then 5 else 3
    status := "in_progress"
    races := []
    current_race := 1 }

/-- Match identifier generation in create_match. -/
def nextMatchId (st : RMState) : String :=
  "match_" ++ toString (st.matchesD.length + 1)

/-- RaceManager.create_match. -/
def create_match (st : RMState) (match_name : String) (participants : List String)
    (league : String) (is_match : Bool) : RMState :=
  let m := createMatchRec match_name participants league is_match
  { st with matchesD := dictSet st.matchesD (nextMatchId st) m }

/-- The updated match record stored by add_race_to_match: the sub-race is
filed under the current sequence number, the race pointer advances, and the
status flips to completed when the pre-increment pointer has reached the
target count. -/
def advanceMatch (changes : List (String × ℝ)) (m : MatchRec)
    (track_name : String) (race_results : List (String × Pos)) : MatchRec :=
  let sub : SubRace :=
    { track := track_name, results := race_results, elo_changes := changes }
  { m with
    races := dictSet m.races ("race_" ++ toString m.current_race) sub
    current_race := m.current_race + 1
    status := if m.current_race ≥ m.num_races then "completed" else m.status }

/-- RaceManager.add_race_to_match: returns False (state unchanged) when the
match is unknown or already past its race count; otherwise processes the
results immediately, stores the sub-race, advances current_race, and marks
the match completed when the pre-increment current_race has reached
num_races. -/
noncomputable def add_race_to_match (st : RMState) (match_id track_name : String)
    (race_results : List (String × Pos)) : Bool × RMState :=
  match dictGet st.matchesD match_id with
  | none => (false, st)
  | some m =>
    if m.current_race > m.num_races then (false, st)
    else
      let pr := process_race_results st.players race_results m.is_match
      (true, { st with
        players := pr.1
        matchesD := dictSet st.matchesD match_id
          (advanceMatch pr.2 m track_name race_results) })

/-! ### The ZeroDivisionError path

With exactly one resolved entrant the computation loop of
process_race_results calls update_elo_rating with D = 1, and Python raises
ZeroDivisionError at `(D_o + M) * (D - R) / (D - 1)` before any mutation is
committed; with zero resolved entrants the loop body never runs and no
division happens. The definitions above use Lean's total real division and
so collapse this error path; the checked variants below restore it, so
that acceptance and rejection of add_race and add_race_to_match can be
stated faithfully. -/

/-- Model of process_race_results including the ZeroDivisionError raised
when the participant loop runs with exactly one resolved entrant. -/
noncomputable def process_race_results_checked (players : Players)
    (race_results : List (String × Pos)) (is_match : Bool) :
    Option (Players × List (String × ℝ)) :=
  if (raceParticipants players race_results).length = 1 then none
  else some (process_race_results players race_results is_match)

/-- Model of add_race including both exception paths: the TypeError of the
sort on a mixed list and the ZeroDivisionError of the rating update with
exactly one resolved entrant. Either way nothing is stored. -/
noncomputable def add_race_checked (st : RMState) (race_name : String)
    (race_results : List (String × Pos)) (is_match : Bool) : Option RMState :=
  let race_id := nextRaceId st
  match pySortByPos race_results with
  | none => none
  | some sorted =>
    match process_race_results_checked st.players sorted is_match with
    | none => none
    | some pr =>
      let rec0 : RaceRec :=
        { name := race_name, results := sorted, elo_changes := pr.2,
          is_match := is_match }
      some { st with
        players := pr.1
        races := dictSet st.races race_id rec0 }

/-- Model of add_race_to_match including the ZeroDivisionError of the
rating update with exactly one resolved entrant (there is no sort on this
path, so no TypeError). -/
noncomputable def add_race_to_match_checked (st : RMState)
    (match_id track_name : String) (race_results : List (String × Pos)) :
    Option (Bool × RMState) :=
  match dictGet st.matchesD match_id with
  | none => some (false, st)
  | some m =>
    if m.current_race > m.num_races then some (false, st)
    else
      match process_race_results_checked st.players race_results m.is_match with
      | none => none
      | some pr =>
        some (true, { st with
          players := pr.1
          matchesD := dictSet st.matchesD match_id
            (advanceMatch pr.2 m track_name race_results) })

/-! ### Lookup lemmas for the mutation loops -/

section DictModify

variable {α : Type}

theorem dictModify_cons (p : String × α) (l : List (String × α)) (k : String)
    (f : α → α) :
    dictModify (p :: l) k f
      = (if p.1 = k then (p.1, f p.2) else p) :: dictModify l k f := by
  rw [dictModify, List.map_cons, ← dictModify]
  by_cases h : p.1 = k
  · rw [if_pos h, if_pos (by simpa using h : (p.1 == k) = true)]
  · rw [if_neg h, if_neg (by simpa using h : ¬ ((p.1 == k) = true))]

theorem dictGet_dictModify_self (l : List (String × α)) (k : String) (f : α → α) :
    dictGet (dictModify l k f) k = (dictGet l k).map f := by
  induction l with
  | nil => rfl
  | cons p rest ih =>
    rw [dictModify_cons]
    by_cases h : p.1 = k
    · rw [if_pos h, dictGet_cons, dictGet_cons, if_pos h, if_pos h]
      rfl
    · rw [if_neg h, dictGet_cons, dictGet_cons, if_neg h, if_neg h]
      exact ih

theorem dictGet_dictModify_ne (l : List (String × α)) {k k' : String} (f : α → α)
    (h : k' ≠ k) : dictGet (dictModify l k f) k' = dictGet l k' := by
  induction l with
  | nil => rfl
  | cons p rest ih =>
    rw [dictModify_cons]
    by_cases hp : p.1 = k
    · have hne : ¬ p.1 = k' := fun he => h (he ▸ hp)
      rw [if_pos hp, dictGet_cons, dictGet_cons, if_neg hne, if_neg hne]
      exact ih
    · rw [if_neg hp, dictGet_cons, dictGet_cons]
      by_cases he : p.1 = k'
      · rw [if_pos he, if_pos he]
      · rw [if_neg he, if_neg he]
        exact ih

theorem dictHas_false_get_none {l : List (String × α)} {k : String}
    (h : dictHas l k = false) : dictGet l k = none := by
  rw [dictGet_eq_none_iff]
  intro hc
  rw [(dictHas_iff l k).mpr hc] at h
  exact Bool.true_eq_false.mp h

end DictModify

/-- A single step of the apply loop leaves other tags untouched. -/
theorem applyAll_frame (changes : List (String × ℝ)) (ps : List Participant)
    (players : Players) (t : String) (h : ∀ q ∈ ps, q.tag ≠ t) :
    dictGet (applyAll changes ps players) t = dictGet players t := by
  induction ps generalizing players with
  | nil => rfl
  | cons p rest ih =>
    rw [applyAll, List.foldl_cons]
    have hstep : ∀ pl : Players,
        dictGet (match dictGet changes p.tag with
          | some c => dictModify pl p.tag (applyRecFn p.old_elo c)
          | none => pl) t = dictGet pl t := by
      intro pl
      cases dictGet changes p.tag with
      | none => rfl
      | some c =>
        exact dictGet_dictModify_ne pl _ (fun he => h p (List.mem_cons_self _ _) he.symm)
    rw [← applyAll]
    rw [ih _ (fun q hq => h q (List.mem_cons_of_mem _ hq)), hstep]

/-- With distinct tags, the apply loop transforms each participant's record
by exactly its own change. -/
theorem applyAll_lookup {changes : List (String × ℝ)} {ps : List Participant}
    (players : Players) {p : Participant} {c : ℝ}
    (hnd : (ps.map Participant.tag).Nodup) (hp : p ∈ ps)
    (hc : dictGet changes p.tag = some c) :
    dictGet (applyAll changes ps players) p.tag
      = (dictGet players p.tag).map (applyRecFn p.old_elo c) := by
  induction ps generalizing players with
  | nil => simp at hp
  | cons q rest ih =>
    rw [List.map_cons, List.nodup_cons] at hnd
    rw [applyAll, List.foldl_cons, ← applyAll]
    rcases List.mem_cons.mp hp with rfl | hmem
    · have hrest : ∀ r ∈ rest, r.tag ≠ p.tag := by
        intro r hr he
        exact hnd.1 (he ▸ List.mem_map.mpr ⟨r, hr, rfl⟩)
      rw [applyAll_frame _ _ _ _ hrest, hc, dictGet_dictModify_self]
    · have hne : q.tag ≠ p.tag := by
        intro he
        exact hnd.1 (he ▸ List.mem_map.mpr ⟨p, hmem, rfl⟩)
      have hstep : dictGet (match dictGet changes q.tag with
          | some c0 => dictModify players q.tag (applyRecFn q.old_elo c0)
          | none => players) p.tag = dictGet players p.tag := by
        cases dictGet changes q.tag with
        | none => rfl
        | some c0 => exact dictGet_dictModify_ne players _ (fun he => hne he.symm)
      rw [ih _ hnd.2 hmem, hstep]

/-- A single step of the revert loop leaves other tags untouched. -/
theorem revertAll_frame (changes : List (String × ℝ)) (players : Players)
    (t : String) (h : ∀ pc ∈ changes, pc.1 ≠ t) :
    dictGet (revertAll changes players) t = dictGet players t := by
  induction changes generalizing players with
  | nil => rfl
  | cons pc rest ih =>
    rw [revertAll, List.foldl_cons, ← revertAll]
    have hstep : dictGet (if dictHas players pc.1
        then dictModify players pc.1 (revertRecFn pc.2) else players) t
        = dictGet players t := by
      split
      · exact dictGet_dictModify_ne players _
          (fun he => h pc (List.mem_cons_self _ _) he.symm)
      · rfl
    rw [ih _ (fun q hq => h q (List.mem_cons_of_mem _ hq)), hstep]

/-- With distinct keys, the revert loop maps each stored change onto the
corresponding player's record exactly once. -/
theorem revertAll_lookup {changes : List (String × ℝ)} (players : Players)
    {t : String} {c : ℝ} (hnd : (changes.map Prod.fst).Nodup)
    (hm : (t, c) ∈ changes) :
    dictGet (revertAll changes players) t
      = (dictGet players t).map (revertRecFn c) := by
  induction changes generalizing players with
  | nil => simp at hm
  | cons pc rest ih =>
    rw [List.map_cons, List.nodup_cons] at hnd
    rw [revertAll, List.foldl_cons, ← revertAll]
    rcases List.mem_cons.mp hm with he | hmem
    · obtain rfl : pc = (t, c) := he.symm
      have hrest : ∀ q ∈ rest, q.1 ≠ t := by
        intro q hq heq
        exact hnd.1 (heq ▸ List.mem_map.mpr ⟨q, hq, rfl⟩)
      rw [revertAll_frame _ _ _ hrest]
      by_cases hhas : dictHas players t
      · rw [if_pos hhas]
        exact dictGet_dictModify_self players t _
      · rw [if_neg hhas]
        rw [dictHas_false_get_none (Bool.not_eq_true _ ▸ Bool.of_not_eq_true hhas)]
        rfl
    · have hne : pc.1 ≠ t := by
        intro he
        exact hnd.1 (he ▸ List.mem_map.mpr ⟨(t, c), hmem, rfl⟩)
      have hstep : dictGet (if dictHas players pc.1
          then dictModify players pc.1 (revertRecFn pc.2) else players) t
          = dictGet players t := by
        split
        · exact dictGet_dictModify_ne players _ (fun he => hne he.symm)
        · rfl
      rw [ih _ hnd.2 hmem, hstep]

/-! ### Structural lemmas about the participants list -/

theorem raceParticipantsAux_cons (players : Players) (total : ℕ)
    (r : String × Pos) (rest : List (String × Pos)) :
    raceParticipantsAux players total (r :: rest)
      = match dictGet players r.1 with
        | none => raceParticipantsAux players total rest
        | some rec => mkParticipant total r rec :: raceParticipantsAux players total rest := by
  rw [raceParticipantsAux, List.filterMap_cons, raceParticipantsAux]
  cases dictGet players r.1 <;> rfl

theorem mem_raceParticipantsAux {players : Players} {total : ℕ}
    {results : List (String × Pos)} {p : Participant}
    (h : p ∈ raceParticipantsAux players total results) :
    ∃ r ∈ results, ∃ rec, dictGet players r.1 = some rec ∧
      p = mkParticipant total r rec := by
  rw [raceParticipantsAux] at h
  obtain ⟨r, hr, hf⟩ := List.mem_filterMap.mp h
  cases hg : dictGet players r.1 with
  | none => rw [hg] at hf; exact absurd hf (by simp)
  | some rec =>
    rw [hg] at hf
    have hf2 : some (mkParticipant total r rec) = some p := hf
    injection hf2 with hf2
    exact ⟨r, hr, rec, hg, hf2.symm⟩

/-- Every DNF entrant is scored at the raw length of the results list. -/
theorem dnf_position_eq_total {players : Players} {results : List (String × Pos)}
    {p : Participant} (h : p ∈ raceParticipants players results)
    (hdnf : p.original = Pos.dnf) : p.position = (results.length : ℤ) := by
  obtain ⟨r, _, rec, _, hp⟩ := mem_raceParticipantsAux h
  subst hp
  have hr2 : r.2 = Pos.dnf := hdnf
  rw [mkParticipant, hr2]

/-- The tags of the participants form a sublist of the supplied tags. -/
theorem raceParticipantsAux_tags_sublist (players : Players) (total : ℕ)
    (results : List (String × Pos)) :
    ((raceParticipantsAux players total results).map Participant.tag).Sublist
      (results.map Prod.fst) := by
  induction results with
  | nil => simp [raceParticipantsAux]
  | cons r rest ih =>
    rw [raceParticipantsAux_cons, List.map_cons]
    cases dictGet players r.1 with
    | none => exact List.Sublist.cons _ ih
    | some rec =>
      rw [List.map_cons]
      exact List.Sublist.cons₂ _ ih

theorem raceParticipants_tags_nodup {players : Players}
    {results : List (String × Pos)} (hnd : (results.map Prod.fst).Nodup) :
    ((raceParticipants players results).map Participant.tag).Nodup :=
  (raceParticipantsAux_tags_sublist players results.length results).nodup hnd

/-- When every identifier resolves, no entrant is dropped. -/
theorem raceParticipantsAux_length_all_resolved {players : Players} (total : ℕ)
    {results : List (String × Pos)}
    (h : ∀ r ∈ results, (dictGet players r.1).isSome) :
    (raceParticipantsAux players total results).length = results.length := by
  induction results with
  | nil => rfl
  | cons r rest ih =>
    rw [raceParticipantsAux_cons]
    cases hg : dictGet players r.1 with
    | none =>
      have hs := h r (List.mem_cons_self _ _)
      rw [hg] at hs
      exact absurd hs (by simp)
    | some rec =>
      rw [List.length_cons, List.length_cons,
        ih (fun q hq => h q (List.mem_cons_of_mem _ hq))]

theorem raceParticipants_length_all_resolved {players : Players}
    {results : List (String × Pos)}
    (h : ∀ r ∈ results, (dictGet players r.1).isSome) :
    (raceParticipants players results).length = results.length :=
  raceParticipantsAux_length_all_resolved results.length h

/-! ### Lookup through dict assignment -/

section DictSet

variable {α : Type}

theorem dictHas_cons_tail {p : String × α} {l : List (String × α)} {k : String}
    (hhas : dictHas (p :: l) k = true) (hp : p.1 ≠ k) : dictHas l k = true := by
  rw [dictHas, List.any_cons, show (p.1 == k) = false by simpa using hp,
    Bool.false_or] at hhas
  exact hhas

theorem dictGet_map_set_self {l : List (String × α)} {k : String} (v : α)
    (hhas : dictHas l k = true) :
    dictGet (l.map (fun p => if p.1 == k then (k, v) else p)) k = some v := by
  induction l with
  | nil => simp [dictHas] at hhas
  | cons p rest ih =>
    rw [List.map_cons]
    by_cases hp : p.1 = k
    · rw [if_pos (by simpa using hp : (p.1 == k) = true), dictGet_cons, if_pos rfl]
    · rw [if_neg (by simpa using hp : ¬ ((p.1 == k) = true)), dictGet_cons, if_neg hp]
      exact ih (dictHas_cons_tail hhas hp)

theorem dictGet_append_none {l l2 : List (String × α)} {k : String}
    (h : dictGet l k = none) : dictGet (l ++ l2) k = dictGet l2 k := by
  induction l with
  | nil => rfl
  | cons p rest ih =>
    rw [dictGet_cons] at h
    by_cases hp : p.1 = k
    · rw [if_pos hp] at h
      exact absurd h (by simp)
    · rw [if_neg hp] at h
      rw [List.cons_append, dictGet_cons, if_neg hp]
      exact ih h

theorem dictHas_eq_false {l : List (String × α)} {k : String}
    (h : ¬ dictHas l k = true) : dictHas l k = false := by
  revert h
  cases dictHas l k <;> simp

theorem dictGet_dictSet_self (l : List (String × α)) (k : String) (v : α) :
    dictGet (dictSet l k v) k = some v := by
  rw [dictSet]
  by_cases hhas : dictHas l k
  · rw [if_pos hhas]
    exact dictGet_map_set_self v hhas
  · rw [if_neg hhas,
      dictGet_append_none (dictHas_false_get_none (dictHas_eq_false hhas)),
      dictGet_cons, if_pos rfl]

theorem dictGet_map_set_ne (l : List (String × α)) {k k' : String} (v : α)
    (h : k' ≠ k) :
    dictGet (l.map (fun p => if p.1 == k then (k, v) else p)) k' = dictGet l k' := by
  induction l with
  | nil => rfl
  | cons p rest ih =>
    rw [List.map_cons]
    by_cases hp : p.1 = k
    · have hne : ¬ p.1 = k' := fun he => h (he ▸ hp)
      rw [if_pos (by simpa using hp : (p.1 == k) = true), dictGet_cons,
        dictGet_cons, if_neg (fun he : k = k' => h he.symm), if_neg hne]
      exact ih
    · rw [if_neg (by simpa using hp : ¬ ((p.1 == k) = true)), dictGet_cons,
        dictGet_cons]
      by_cases he : p.1 = k'
      · rw [if_pos he, if_pos he]
      · rw [if_neg he, if_neg he]
        exact ih

theorem dictGet_dictSet_ne (l : List (String × α)) {k k' : String} (v : α)
    (h : k' ≠ k) : dictGet (dictSet l k v) k' = dictGet l k' := by
  rw [dictSet]
  by_cases hhas : dictHas l k
  · rw [if_pos hhas]
    exact dictGet_map_set_ne l v h
  · rw [if_neg hhas]
    cases hg : dictGet l k' with
    | none =>
      rw [dictGet_append_none hg, dictGet_cons, if_neg (fun he : k = k' => h he.symm)]
      rfl
    | some w =>
      induction l with
      | nil => simp [dictGet_nil] at hg
      | cons p rest ih =>
        rw [dictGet_cons] at hg
        rw [List.cons_append, dictGet_cons]
        by_cases hp : p.1 = k'
        · rw [if_pos hp] at hg ⊢
          exact hg
        · rw [if_neg hp] at hg ⊢
          refine ih (fun hc => hhas ?_) hg
          rw [dictHas] at hc
          rw [dictHas, List.any_cons, hc, Bool.or_true]

end DictSet

section DictKeysSub

variable {α : Type}

theorem mem_dictKeys_dictSet {l : List (String × α)} {k0 k : String} {v : α}
    (h : k ∈ dictKeys (dictSet l k0 v)) : k = k0 ∨ k ∈ dictKeys l := by
  rw [dictSet] at h
  by_cases hhas : dictHas l k0
  · rw [if_pos hhas] at h
    rw [dictKeys, List.map_map] at h
    obtain ⟨p, hp, he⟩ := List.mem_map.mp h
    by_cases hk : p.1 = k0
    · left
      rw [← he]
      show (if p.1 == k0 then (k0, v) else p).1 = k0
      rw [if_pos (by simpa using hk : (p.1 == k0) = true)]
    · right
      rw [← he]
      show (if p.1 == k0 then (k0, v) else p).1 ∈ dictKeys l
      rw [if_neg (by simpa using hk : ¬ ((p.1 == k0) = true))]
      exact List.mem_map.mpr ⟨p, hp, rfl⟩
  · rw [if_neg hhas] at h
    rw [dictKeys, List.map_append] at h
    rcases List.mem_append.mp h with hl | hr
    · right
      exact hl
    · left
      simpa using hr

theorem mem_dictKeys_pyDict {l : List (String × α)} {k : String}
    (h : k ∈ dictKeys (pyDict l)) : k ∈ dictKeys l := by
  suffices hgen : ∀ acc : List (String × α),
      k ∈ dictKeys (l.foldl (fun acc p => dictSet acc p.1 p.2) acc) →
      k ∈ dictKeys acc ∨ k ∈ dictKeys l by
    rcases hgen [] h with hc | hc
    · simp [dictKeys] at hc
    · exact hc
  clear h
  induction l with
  | nil =>
    intro acc h
    exact Or.inl h
  | cons p rest ih =>
    intro acc h
    rw [List.foldl_cons] at h
    rcases ih (dictSet acc p.1 p.2) h with hc | hc
    · rcases mem_dictKeys_dictSet hc with he | hm
      · right
        rw [dictKeys, List.map_cons, he]
        exact List.mem_cons_self _ _
      · exact Or.inl hm
    · right
      rw [dictKeys, List.map_cons]
      exact List.mem_cons_of_mem _ hc

end DictKeysSub

/-! ### The two-entrant expected-score identity -/

/-- The two expected scores of a head-to-head pair always sum to one. -/
theorem expected_pair_sum (P Q S : ℝ) :
    1 / (1 + (10 : ℝ) ^ ((Q - P) / S)) + 1 / (1 + (10 : ℝ) ^ ((P - Q) / S)) = 1 := by
  have hneg : (P - Q) / S = -((Q - P) / S) := by ring
  have hpos : (0 : ℝ) < (10 : ℝ) ^ ((Q - P) / S) :=
    Real.rpow_pos_of_pos (by norm_num) _
  rw [hneg, Real.rpow_neg (by norm_num : (0 : ℝ) ≤ 10)]
  set t := (10 : ℝ) ^ ((Q - P) / S)
  have h1 : 1 + t ≠ 0 := by positivity
  have h2 : t ≠ 0 := ne_of_gt hpos
  field_simp
  ring

/-! ### Permutation invariance of the per-participant computation -/

/-- The update formula depends on the opponent list only through its length
and the sum of the mapped expected scores, so it is invariant under
permutations of the opponents. -/
theorem update_elo_rating_perm (P Ks Km Ms Mm D R : ℝ)
    {opponent_elos opponent_elos' : List ℝ} (teammate_elos : List ℝ) (S : ℝ)
    (is_match : Bool) (hp : opponent_elos.Perm opponent_elos') :
    update_elo_rating P Ks Km Ms Mm D R opponent_elos teammate_elos S is_match
      = update_elo_rating P Ks Km Ms Mm D R opponent_elos' teammate_elos S is_match := by
  rw [update_elo_rating, update_elo_rating, hp.length_eq,
    (hp.map (fun O => 1 / (1 + (10 : ℝ) ^ ((O - P) / S)))).sum_eq]

/-- Each participant's change is computed from the snapshot of all
participants and is invariant under permutations of that list. -/
theorem participantChange_perm (is_match : Bool) {ps ps' : List Participant}
    (hp : ps.Perm ps') (p : Participant) :
    participantChange is_match ps p = participantChange is_match ps' p := by
  rw [participantChange, participantChange, hp.length_eq]
  exact congrArg (fun z => z - (p.old_elo : ℝ))
    (update_elo_rating_perm _ _ _ _ _ _ _ _ _ _
      ((hp.filter (fun q => !(q.tag == p.tag))).map (fun q => (q.old_elo : ℝ))))

/-- The participants list is permutation-equivariant in the results list
(the raw total is permutation-invariant). -/
theorem raceParticipants_perm (players : Players)
    {results results' : List (String × Pos)} (hp : results.Perm results') :
    (raceParticipants players results).Perm (raceParticipants players results') := by
  rw [raceParticipants, raceParticipants, ← hp.length_eq]
  exact hp.filterMap _

/-- Keys of the elo_changes assignments are exactly the participant tags. -/
theorem raceEloChanges_keys (is_match : Bool) (ps : List Participant) :
    dictKeys (raceEloChanges is_match ps) = ps.map Participant.tag := by
  rw [raceEloChanges, dictKeys, List.map_map]
  rfl

/-- With distinct tags the elo_changes dict holds each participant's own
change. -/
theorem dictGet_raceEloChanges {is_match : Bool} {ps : List Participant}
    {p : Participant} (hnd : (ps.map Participant.tag).Nodup) (hp : p ∈ ps) :
    dictGet (pyDict (raceEloChanges is_match ps)) p.tag
      = some (participantChange is_match ps p) := by
  rw [pyDict_eq_self (by rw [raceEloChanges_keys]; exact hnd)]
  exact dictGet_of_mem (by rw [raceEloChanges_keys]; exact hnd)
    (List.mem_map.mpr ⟨p, hp, rfl⟩)

/-! ### Evaluation lemmas for world_rank_to_elo -/

theorem world_rank_to_elo_one : world_rank_to_elo 1 = 4500 := by
  rw [world_rank_to_elo]
  have h1 : ((1 : ℕ) : ℝ) = 1 := by norm_num
  have h4500 : (4500 : ℝ) = ((4500 : ℤ) : ℝ) := by norm_num
  rw [h1, Real.log_one, zero_div, zero_mul, sub_zero, h4500, pyround_intCast]
  norm_num

theorem world_rank_to_elo_hundredk : world_rank_to_elo 100000 = 800 := by
  rw [world_rank_to_elo]
  have hc : (0 : ℝ) < Real.log 100000 := Real.log_pos (by norm_num)
  have h1 : ((100000 : ℕ) : ℝ) = 100000 := by norm_num
  rw [h1, div_self (ne_of_gt hc)]
  have h800 : (4500 : ℝ) - 1 * (4500 - 800) = ((800 : ℤ) : ℝ) := by norm_num
  rw [h800, pyround_intCast]
  norm_num

/-! ### Claim theorems -/

/-- C9: world_rank_to_rating is monotonically non-increasing (for all
positive ranks r1 < r2 the rating at r2 is at most the rating at r1), rank
1 yields exactly 4500, and every result for a positive rank lies in the
closed interval [800, 4500]. -/
theorem c9_world_rank_monotone_bounds :
    (∀ r1 r2 : ℕ, 0 < r1 → r1 < r2 →
      world_rank_to_elo r2 ≤ world_rank_to_elo r1) ∧
    world_rank_to_elo 1 = 4500 ∧
    (∀ r : ℕ, 0 < r → 800 ≤ world_rank_to_elo r ∧ world_rank_to_elo r ≤ 4500) := by
  have hc : (0 : ℝ) < Real.log 100000 := Real.log_pos (by norm_num)
  have h4500 : (4500 : ℝ) = ((4500 : ℤ) : ℝ) := by norm_num
  refine ⟨?_, ?_, ?_⟩
  · intro r1 r2 h1 h12
    rw [world_rank_to_elo, world_rank_to_elo]
    refine max_le_max (le_refl 800) (pyround_mono ?_)
    have hlog : Real.log r1 ≤ Real.log r2 := by
      rw [Real.log_le_log_iff (by exact_mod_cast h1) (by exact_mod_cast h1.trans h12)]
      exact_mod_cast le_of_lt h12
    have hdiv : Real.log r1 / Real.log 100000 ≤ Real.log r2 / Real.log 100000 :=
      (div_le_div_iff_of_pos_right hc).mpr hlog
    nlinarith [hdiv]
  · exact world_rank_to_elo_one
  · intro r hr
    constructor
    · exact le_max_left _ _
    · rw [world_rank_to_elo]
      refine max_le (by norm_num) ?_
      have hnn : 0 ≤ (Real.log r / Real.log 100000) * (4500 - 800) := by
        have hlr : 0 ≤ Real.log r := Real.log_natCast_nonneg r
        have := div_nonneg hlr (le_of_lt hc)
        nlinarith
      calc pyround (4500 - (Real.log r / Real.log 100000) * (4500 - 800))
          ≤ pyround (4500 : ℝ) := pyround_mono (by linarith)
        _ = 4500 := by rw [h4500, pyround_intCast]

/-- C9 witness: the monotonicity part at ranks 1 < 2 and the bounds part at
rank 3. -/
theorem c9_world_rank_witness :
    ((0 : ℕ) < 1 ∧ (1 : ℕ) < 2 ∧ world_rank_to_elo 2 ≤ world_rank_to_elo 1) ∧
    ((0 : ℕ) < 3 ∧ 800 ≤ world_rank_to_elo 3 ∧ world_rank_to_elo 3 ≤ 4500) :=
  ⟨⟨by norm_num, by norm_num,
      c9_world_rank_monotone_bounds.1 1 2 (by norm_num) (by norm_num)⟩,
    by norm_num,
    (c9_world_rank_monotone_bounds.2.2 3 (by norm_num)).1,
    (c9_world_rank_monotone_bounds.2.2 3 (by norm_num)).2⟩

/-- C2 (amended): in a head-to-head race processed as a match (D = 2,
K = 32, M = 1), the winner's delta and the loser's delta sum to K times M,
that is 32, for every pair of current ratings — the formula is not
zero-sum for matches; the gain and the loss differ in magnitude by exactly
32. -/
theorem c2_amended_delta_sum (W L : ℝ) :
    (update_elo_rating W 16 32 0 1 2 1 [L] [] 400 true - W)
      + (update_elo_rating L 16 32 0 1 2 2 [W] [] 400 true - L) = 32 := by
  have hs := expected_pair_sum W L 400
  norm_num at hs
  simp only [update_elo_rating, List.map_cons, List.map_nil, List.sum_cons,
    List.sum_nil, List.length_cons, List.length_nil, List.map, if_true]
  norm_num
  linarith

/-- C2 counterexample: at current ratings 2000 and 1800 the two deltas of
the head-to-head match sum to 32, not zero, refuting the zero-sum claim at
this explicit input. -/
theorem c2_zero_sum_counterexample :
    (update_elo_rating 2000 16 32 0 1 2 1 [1800] [] 400 true - 2000)
      + (update_elo_rating 1800 16 32 0 1 2 2 [2000] [] 400 true - 1800) = 32
    ∧ (32 : ℝ) ≠ 0 := by
  constructor
  · have hs := expected_pair_sum 2000 1800 400
    norm_num at hs
    simp only [update_elo_rating, List.map_cons, List.map_nil, List.sum_cons,
      List.sum_nil, List.length_cons, List.length_nil, List.map, if_true]
    norm_num
    linarith
  · norm_num

/-- C6 (amended): calling add with an identifier that is already present
does not fail with DuplicateIdentifier; the existing record is silently
overwritten with a freshly computed one — initial and current rating are
recomputed from the new world rank and races_played is reset to 0. -/
theorem c6_amended_overwrite (players : Players) (tag : String) (rank : ℕ)
    (_hexist : (dictGet players tag).isSome) :
    dictGet (add_player players tag rank) tag
      = some { world_rank := rank
               initial_elo := world_rank_to_elo rank
               current_elo := world_rank_to_elo rank
               league := get_league ((world_rank_to_elo rank : ℤ) : ℝ)
               races_played := 0 } := by
  rw [add_player]
  exact dictGet_dictSet_self players tag _

/-- C6 amended witness: overwriting the existing record of "a". -/
theorem c6_amended_witness :
    (dictGet [("a", (⟨1, 1000, 1000, "Academy", 0⟩ : PlayerRec))] "a").isSome
    ∧ dictGet (add_player [("a", (⟨1, 1000, 1000, "Academy", 0⟩ : PlayerRec))]
        "a" 7) "a"
      = some { world_rank := 7
               initial_elo := world_rank_to_elo 7
               current_elo := world_rank_to_elo 7
               league := get_league ((world_rank_to_elo 7 : ℤ) : ℝ)
               races_played := 0 } :=
  ⟨by decide, c6_amended_overwrite _ "a" 7 (by decide)⟩

/-- C6 counterexample: adding "a" at rank 1 stores initial rating 4500;
calling add again for the existing identifier "a" (rank 100000) does not
fail and replaces the record — the stored initial rating becomes 800. -/
theorem c6_duplicate_add_counterexample :
    (dictGet (add_player [] "a" 1) "a").map PlayerRec.initial_elo = some 4500
    ∧ (dictGet (add_player (add_player [] "a" 1) "a" 100000) "a").map
        PlayerRec.initial_elo = some 800
    ∧ (4500 : ℤ) ≠ 800 := by
  refine ⟨?_, ?_, by norm_num⟩
  · rw [add_player, dictGet_dictSet_self, Option.map_some', world_rank_to_elo_one]
  · rw [add_player, dictGet_dictSet_self, Option.map_some', world_rank_to_elo_hundredk]

def c7State : RMState :=
  { players := []
    races := [("race_1", ⟨"first", [], [], true⟩), ("race_2", ⟨"second", [], [], true⟩)]
    matchesD := [] }

/-- C7: in a ledger holding race_1 and race_2, delete_race removes race_1
successfully, after which the identifier generated for the next race is
race_2 — equal to the identifier of a race that still exists (and that
previously existed). The size-recomputed identifier scheme violates global
uniqueness after a deletion. -/
theorem c7_race_id_collision_eval :
    (delete_race c7State "race_1").1 = true
    ∧ nextRaceId (delete_race c7State "race_1").2 = "race_2"
    ∧ dictHas (delete_race c7State "race_1").2.races "race_2" = true := by
  refine ⟨rfl, rfl, rfl⟩

/-- The match-record invariant of the claim: completed status exactly when
the race pointer has passed the target count, which is 5 for a match and 3
for a scrimmage. -/
def matchInv (m : MatchRec) : Prop :=
  (m.status = "completed" ↔ m.current_race > m.num_races)
  ∧ m.num_races = (if m.is_match then 5 else 3)

/-- C5: the completion invariant holds for a freshly created match, is
preserved by every race submission, and a submission against a completed
match is rejected with the state returned unchanged (no rating mutation). -/
theorem c5_match_completion_invariant :
    (∀ name parts lg im, matchInv (createMatchRec name parts lg im))
    ∧ (∀ st mid track results m, dictGet st.matchesD mid = some m → matchInv m →
        ∀ m2, dictGet (add_race_to_match st mid track results).2.matchesD mid
          = some m2 → matchInv m2)
    ∧ (∀ st mid track results m, dictGet st.matchesD mid = some m → matchInv m →
        m.status = "completed" →
        add_race_to_match st mid track results = (false, st)) := by
  refine ⟨?_, ?_, ?_⟩
  · intro name parts lg im
    refine ⟨iff_of_false (by decide : "in_progress" ≠ "completed") ?_, rfl⟩
    cases im
    · exact (by decide : ¬ ((1 : ℤ) > 3))
    · exact (by decide : ¬ ((1 : ℤ) > 5))
  · intro st mid track results m hget hinv m2 hget2
    simp only [add_race_to_match, hget] at hget2
    by_cases hc : m.current_race > m.num_races
    · rw [if_pos hc] at hget2
      have hget2' : dictGet st.matchesD mid = some m2 := hget2
      rw [hget] at hget2'
      injection hget2' with hget2'
      rw [← hget2']
      exact hinv
    · rw [if_neg hc] at hget2
      have hget2' : dictGet (dictSet st.matchesD mid
          (advanceMatch (process_race_results st.players results m.is_match).2
            m track results)) mid = some m2 := hget2
      rw [dictGet_dictSet_self] at hget2'
      injection hget2' with hget2'
      rw [← hget2']
      refine ⟨?_, hinv.2⟩
      show (if m.current_race ≥ m.num_races then "completed" else m.status)
        = "completed" ↔ m.current_race + 1 > m.num_races
      by_cases hge : m.current_race ≥ m.num_races
      · rw [if_pos hge]
        exact iff_of_true rfl (by omega)
      · rw [if_neg hge]
        constructor
        · intro hs
          exact absurd (hinv.1.mp hs) hc
        · intro hgt
          exact absurd hgt (by omega)
  · intro st mid track results m hget hinv hst
    simp only [add_race_to_match, hget]
    rw [if_pos (hinv.1.mp hst)]

def c5Done : MatchRec := ⟨"m", ["a"], "Academy", true, 5, "completed", [], 6⟩

def c5DoneState : RMState := ⟨[], [], [("match_1", c5Done)]⟩

def c5InState : RMState := ⟨[], [], [("match_1", createMatchRec "m" ["a"] "Academy" true)]⟩

/-- C5 witness: the preservation part applied to a fresh match receiving
its first race, and the rejection part applied to a completed match. -/
theorem c5_match_completion_witness :
    matchInv (⟨"m", ["a"], "Academy", true, 5, "in_progress",
      [("race_1", ⟨"t", [], []⟩)], 2⟩ : MatchRec)
    ∧ add_race_to_match c5DoneState "match_1" "t" [] = (false, c5DoneState) := by
  constructor
  · exact c5_match_completion_invariant.2.1 c5InState "match_1" "t" []
      (createMatchRec "m" ["a"] "Academy" true) rfl ⟨by decide, by decide⟩ _ rfl
  · exact c5_match_completion_invariant.2.2 c5DoneState "match_1" "t" []
      c5Done rfl ⟨by decide, by decide⟩ rfl

/-- C3 (amended): every DNF entrant receives effective position equal to
the raw length of the supplied results list (len(race_results), counted
before unknown identifiers are dropped) — this equals the resolved count D
exactly when every identifier resolves; unknown identifiers are dropped
from the participants (D counts only resolved pairs) and never appear in
the produced delta map. -/
theorem c3_amended_dnf_position (players : Players) (results : List (String × Pos))
    (is_match : Bool) :
    (∀ p ∈ raceParticipants players results, p.original = Pos.dnf →
      p.position = (results.length : ℤ))
    ∧ ((∀ r ∈ results, (dictGet players r.1).isSome) →
        (raceParticipants players results).length = results.length)
    ∧ (∀ t, dictGet players t = none →
        dictGet (process_race_results players results is_match).2 t = none) := by
  refine ⟨fun p hp => dnf_position_eq_total hp,
    raceParticipants_length_all_resolved, ?_⟩
  intro t hnone
  show dictGet (pyDict (raceEloChanges is_match (raceParticipants players results))) t
    = none
  rw [dictGet_eq_none_iff]
  intro hmem
  have hmem2 := mem_dictKeys_pyDict hmem
  rw [raceEloChanges_keys] at hmem2
  obtain ⟨p, hp, htag⟩ := List.mem_map.mp hmem2
  obtain ⟨r, _, rec, hget, hpe⟩ := mem_raceParticipantsAux hp
  have : dictGet players t = some rec := by
    rw [← htag, hpe]
    exact hget
  rw [this] at hnone
  exact absurd hnone (by simp)

def c3Players : Players :=
  [("a", ⟨1, 1000, 1000, "Academy", 0⟩), ("b", ⟨2, 1000, 1000, "Academy", 0⟩),
   ("c", ⟨3, 1000, 1000, "Academy", 0⟩), ("d", ⟨4, 1000, 1000, "Academy", 0⟩),
   ("e", ⟨5, 1000, 1000, "Academy", 0⟩), ("f", ⟨6, 1000, 1000, "Academy", 0⟩),
   ("g", ⟨7, 1000, 1000, "Academy", 0⟩), ("h", ⟨8, 1000, 1000, "Academy", 0⟩)]

def c3Results : List (String × Pos) :=
  [("a", Pos.num 1), ("b", Pos.num 2), ("c", Pos.num 3), ("d", Pos.num 4),
   ("e", Pos.dnf), ("f", Pos.dnf), ("g", Pos.dnf), ("h", Pos.dnf)]

/-- C3 witness: the 8-entrant race with four DNF entrants, all of which
resolve — the DNF entrant "e" is scored at position 8, the resolved count
equals 8, and the unknown identifier "zz" is absent from the delta map. -/
theorem c3_amended_witness :
    ((⟨"e", 8, Pos.dnf, 1000⟩ : Participant) ∈ raceParticipants c3Players c3Results
      ∧ (⟨"e", 8, Pos.dnf, 1000⟩ : Participant).position = (c3Results.length : ℤ))
    ∧ ((∀ r ∈ c3Results, (dictGet c3Players r.1).isSome)
      ∧ (raceParticipants c3Players c3Results).length = c3Results.length)
    ∧ (dictGet c3Players "zz" = none
      ∧ dictGet (process_race_results c3Players c3Results true).2 "zz" = none) :=
  ⟨⟨by decide,
    (c3_amended_dnf_position c3Players c3Results true).1 _ (by decide) rfl⟩,
   ⟨by decide,
    (c3_amended_dnf_position c3Players c3Results true).2.1 (by decide)⟩,
   ⟨rfl,
    (c3_amended_dnf_position c3Players c3Results true).2.2 "zz" rfl⟩⟩

def c3xPlayers : Players :=
  [("a", ⟨1, 1000, 1000, "Academy", 0⟩), ("b", ⟨2, 1000, 1000, "Academy", 0⟩)]

def c3xResults : List (String × Pos) :=
  [("a", Pos.num 1), ("x", Pos.num 2), ("b", Pos.dnf)]

/-- C3 counterexample: with three supplied pairs of which one references
the unknown identifier "x", the resolved count D is 2, yet the DNF entrant
"b" is scored at effective position 3 (the raw list length), not D. -/
theorem c3_dnf_position_counterexample :
    (raceParticipants c3xPlayers c3xResults).length = 2
    ∧ (⟨"b", 3, Pos.dnf, 1000⟩ : Participant) ∈ raceParticipants c3xPlayers c3xResults
    ∧ ((3 : ℤ) ≠ 2) :=
  ⟨by decide, by decide, by decide⟩

theorem add_race_checked_isSome {st : RMState} {name : String}
    {results s : List (String × Pos)} {im : Bool}
    (hs : pySortByPos results = some s)
    (hlen : (raceParticipants st.players s).length ≠ 1) :
    (add_race_checked st name results im).isSome = true := by
  rw [add_race_checked, hs]
  show (match process_race_results_checked st.players s im with
    | none => (none : Option RMState)
    | some pr =>
      some { st with
        players := pr.1
        races := dictSet st.races (nextRaceId st) ⟨name, s, pr.2, im⟩ }).isSome = true
  rw [process_race_results_checked, if_neg hlen]
  rfl

theorem add_race_to_match_checked_eq {st : RMState} {mid track : String}
    {results : List (String × Pos)} {m : MatchRec}
    (hget : dictGet st.matchesD mid = some m)
    (hc : ¬ m.current_race > m.num_races)
    (hlen : (raceParticipants st.players results).length ≠ 1) :
    add_race_to_match_checked st mid track results
      = some (true, { st with
          players := (process_race_results st.players results m.is_match).1
          matchesD := dictSet st.matchesD mid
            (advanceMatch (process_race_results st.players results m.is_match).2
              m track results) }) := by
  simp only [add_race_to_match_checked, hget]
  rw [if_neg hc]
  show (match process_race_results_checked st.players results m.is_match with
    | none => (none : Option (Bool × RMState))
    | some pr =>
      some (true, { st with
        players := pr.1
        matchesD := dictSet st.matchesD mid
          (advanceMatch pr.2 m track results) }))
    = some (true, { st with
        players := (process_race_results st.players results m.is_match).1
        matchesD := dictSet st.matchesD mid
          (advanceMatch (process_race_results st.players results m.is_match).2
            m track results) })
  rw [process_race_results_checked, if_neg hlen]

/-- C10 (amended): add_race is not total over results lists mixing the two
position shapes: whenever the list contains at least one integer position
and at least one DNF sentinel, the sort performed before processing raises
TypeError (comparing an int with a str), so add_race fails with nothing
stored. A list of only integers or only DNFs passes the sort and is
accepted provided the number of resolved entrants is not exactly one, and
the match path add_race_to_match — which does not sort — accepts any list,
mixed included, under the same proviso: with exactly one resolved entrant
the rating update divides by zero (ZeroDivisionError at D - 1 = 0) and
either path fails instead of accepting. -/
theorem c10_amended_mixed_sort :
    (∀ (st : RMState) (name : String) (results : List (String × Pos)) (im : Bool),
      (∃ za ∈ results, ∃ n, za.2 = Pos.num n) → (∃ zb ∈ results, zb.2 = Pos.dnf) →
      add_race_checked st name results im = none)
    ∧ (∀ (st : RMState) (name : String) (results : List (String × Pos)) (im : Bool),
      ((∀ z ∈ results, ∃ n, z.2 = Pos.num n) ∨ (∀ z ∈ results, z.2 = Pos.dnf)) →
      (raceParticipants st.players results).length ≠ 1 →
      (add_race_checked st name results im).isSome)
    ∧ (∀ (st : RMState) (mid track : String) (results : List (String × Pos))
        (m : MatchRec), dictGet st.matchesD mid = some m →
        ¬ m.current_race > m.num_races →
        (raceParticipants st.players results).length ≠ 1 →
        ∃ st2, add_race_to_match_checked st mid track results = some (true, st2)) := by
  refine ⟨?_, ?_, ?_⟩
  · intro st name results im ha hb
    obtain ⟨za, hza, n, hn⟩ := ha
    obtain ⟨zb, hzb, hd⟩ := hb
    have hmix : isDnf za.2 ≠ isDnf zb.2 := by
      rw [hn, hd]
      exact Bool.false_ne_true
    rw [add_race_checked, pySortByPos_mixed_none hza hzb hmix]
  · intro st name results im h hlen
    have hhom : ∃ t, ∀ z ∈ results, isDnf z.2 = t := by
      rcases h with hnum | hdnf
      · exact ⟨false, fun z hz => by obtain ⟨n, hn⟩ := hnum z hz; rw [hn]; rfl⟩
      · exact ⟨true, fun z hz => by rw [hdnf z hz]; rfl⟩
    obtain ⟨t, ht⟩ := hhom
    obtain ⟨s, hs, _⟩ := pySortByPos_some_of_homog t results ht
    have hlen2 : (raceParticipants st.players s).length ≠ 1 := by
      rw [(raceParticipants_perm st.players (pySortByPos_perm hs)).length_eq]
      exact hlen
    rw [add_race_checked_isSome hs hlen2]
  · intro st mid track results m hget hc hlen
    exact ⟨_, add_race_to_match_checked_eq hget hc hlen⟩

def c10MState : RMState := ⟨[], [], [("match_1", createMatchRec "m" ["a"] "Academy" true)]⟩

/-- C10 witness: a concrete mixed list is rejected by add_race, the purely
numeric two-entrant variant is accepted, and a mixed list is accepted by
add_race_to_match on an in-progress match (resolved counts 0 and 2, never
exactly 1). -/
theorem c10_amended_witness :
    add_race_checked ⟨[], [], []⟩ "r" [("a", Pos.num 1), ("b", Pos.dnf)] true = none
    ∧ (add_race_checked ⟨[], [], []⟩ "r"
        [("a", Pos.num 1), ("b", Pos.num 2)] true).isSome
    ∧ ∃ st2, add_race_to_match_checked c10MState "match_1" "t"
        [("a", Pos.num 1), ("b", Pos.dnf)] = some (true, st2) := by
  refine ⟨?_, ?_, ?_⟩
  · exact c10_amended_mixed_sort.1 _ "r" _ true
      ⟨("a", Pos.num 1), by decide, 1, rfl⟩ ⟨("b", Pos.dnf), by decide, rfl⟩
  · refine c10_amended_mixed_sort.2.1 _ "r" _ true (Or.inl ?_) (by decide)
    intro z hz
    rcases List.mem_cons.mp hz with rfl | hz2
    · exact ⟨1, rfl⟩
    rcases List.mem_cons.mp hz2 with rfl | hz3
    · exact ⟨2, rfl⟩
    · simp at hz3
  · exact c10_amended_mixed_sort.2.2 c10MState "match_1" "t" _ _ rfl
      (by decide : ¬ ((1 : ℤ) > 5)) (by decide)

def c10xPlayers : Players := [("a", ⟨1, 1000, 1000, "Academy", 0⟩)]

def c10xState : RMState := ⟨c10xPlayers, [], []⟩

def c10xMState : RMState :=
  ⟨c10xPlayers, [], [("match_1", createMatchRec "m" ["a"] "Academy" true)]⟩

/-- C10 counterexample: a list of only integer positions with exactly one
resolved entrant is not accepted by add_race (the rating update divides by
zero), and a mixed list whose DNF entrant is unknown leaves one resolved
entrant, so the match path fails too rather than accepting it — refuting
the claim's universal acceptance clauses. -/
theorem c10_single_entrant_counterexample :
    (∀ z ∈ ([("a", Pos.num 1)] : List (String × Pos)), ∃ n, z.2 = Pos.num n)
    ∧ add_race_checked c10xState "r" [("a", Pos.num 1)] true = none
    ∧ (("a", Pos.num 1) ∈ ([("a", Pos.num 1), ("zz", Pos.dnf)] : List (String × Pos))
      ∧ ("zz", Pos.dnf) ∈ ([("a", Pos.num 1), ("zz", Pos.dnf)] : List (String × Pos)))
    ∧ add_race_to_match_checked c10xMState "match_1" "t"
        [("a", Pos.num 1), ("zz", Pos.dnf)] = none := by
  refine ⟨?_, rfl, ⟨by decide, by decide⟩, rfl⟩
  intro z hz
  rcases List.mem_cons.mp hz with rfl | hz2
  · exact ⟨1, rfl⟩
  · simp at hz2

/-- C8 (amended): for results lists whose identifiers are pairwise
distinct, processing the same pairs in any permutation yields an identical
delta map — every entrant's delta is computed from the snapshot of all
pre-race ratings, and lookups in the resulting elo_changes dict agree at
every key. -/
theorem c8_amended_perm_invariant (players : Players) (is_match : Bool)
    (l l2 : List (String × Pos)) (hperm : l.Perm l2)
    (hnd : (l.map Prod.fst).Nodup) (t : String) :
    dictGet (process_race_results players l is_match).2 t
      = dictGet (process_race_results players l2 is_match).2 t := by
  have hps : (raceParticipants players l).Perm (raceParticipants players l2) :=
    raceParticipants_perm players hperm
  have hnd1 : ((raceParticipants players l).map Participant.tag).Nodup :=
    raceParticipants_tags_nodup hnd
  have hnd2 : ((raceParticipants players l2).map Participant.tag).Nodup :=
    (hps.map Participant.tag).nodup_iff.mp hnd1
  show dictGet (pyDict (raceEloChanges is_match (raceParticipants players l))) t
    = dictGet (pyDict (raceEloChanges is_match (raceParticipants players l2))) t
  rw [pyDict_eq_self (by rw [raceEloChanges_keys]; exact hnd1),
    pyDict_eq_self (by rw [raceEloChanges_keys]; exact hnd2)]
  have hmapeq : raceEloChanges is_match (raceParticipants players l2)
      = (raceParticipants players l2).map
          (fun p => (p.tag, participantChange is_match (raceParticipants players l) p)) := by
    rw [raceEloChanges]
    exact List.map_congr_left (fun p _ => by
      rw [participantChange_perm is_match hps p])
  rw [hmapeq, raceEloChanges]
  have hkeys : dictKeys ((raceParticipants players l).map
      (fun p => (p.tag, participantChange is_match (raceParticipants players l) p)))
      = (raceParticipants players l).map Participant.tag := by
    rw [dictKeys, List.map_map]
    rfl
  exact dictGet_perm
    (hps.map (fun p => (p.tag, participantChange is_match (raceParticipants players l) p)))
    (by rw [hkeys]; exact hnd1) t

def c8wPlayers : Players :=
  [("a", ⟨1, 2000, 2000, "Champion", 0⟩), ("b", ⟨2, 1800, 1800, "Champion", 0⟩)]

/-- C8 witness: the same two distinct-identifier pairs supplied in swapped
order yield identical delta-map lookups. -/
theorem c8_amended_witness :
    ([("a", Pos.num 1), ("b", Pos.num 2)] : List (String × Pos)).Perm
      [("b", Pos.num 2), ("a", Pos.num 1)]
    ∧ dictGet (process_race_results c8wPlayers
        [("a", Pos.num 1), ("b", Pos.num 2)] true).2 "a"
      = dictGet (process_race_results c8wPlayers
        [("b", Pos.num 2), ("a", Pos.num 1)] true).2 "a" :=
  ⟨by decide,
   c8_amended_perm_invariant c8wPlayers true _ _ (by decide) (by decide) "a"⟩

def c8xPlayers : Players := [("a", ⟨1, 1000, 1000, "Academy", 0⟩)]

def c8xL1 : List (String × Pos) := [("a", Pos.num 1), ("a", Pos.num 2)]

def c8xL2 : List (String × Pos) := [("a", Pos.num 2), ("a", Pos.num 1)]

/-- C8 counterexample: the same multiset of pairs with the identifier "a"
listed twice (positions 1 and 2) yields different delta maps under a
permutation: the dict keeps the delta of the last occurrence, 0 in one
order and 32 in the other. -/
theorem c8_perm_counterexample :
    c8xL1.Perm c8xL2
    ∧ dictGet (process_race_results c8xPlayers c8xL1 true).2 "a"
      ≠ dictGet (process_race_results c8xPlayers c8xL2 true).2 "a" := by
  refine ⟨by decide, ?_⟩
  have h1 : dictGet (process_race_results c8xPlayers c8xL1 true).2 "a"
      = some (participantChange true
          [⟨"a", 1, Pos.num 1, 1000⟩, ⟨"a", 2, Pos.num 2, 1000⟩]
          ⟨"a", 2, Pos.num 2, 1000⟩) := rfl
  have h2 : dictGet (process_race_results c8xPlayers c8xL2 true).2 "a"
      = some (participantChange true
          [⟨"a", 2, Pos.num 2, 1000⟩, ⟨"a", 1, Pos.num 1, 1000⟩]
          ⟨"a", 1, Pos.num 1, 1000⟩) := rfl
  rw [h1, h2]
  have e1 : participantChange true
      [⟨"a", 1, Pos.num 1, 1000⟩, ⟨"a", 2, Pos.num 2, 1000⟩]
      ⟨"a", 2, Pos.num 2, 1000⟩ = 0 := by
    simp only [participantChange, update_elo_rating]
    norm_num
  have e2 : participantChange true
      [⟨"a", 2, Pos.num 2, 1000⟩, ⟨"a", 1, Pos.num 1, 1000⟩]
      ⟨"a", 1, Pos.num 1, 1000⟩ = 32 := by
    simp only [participantChange, update_elo_rating]
    norm_num
  rw [e1, e2]
  intro hc
  injection hc with hc
  exact absurd hc (by norm_num)

def c1Players : Players :=
  [("w", ⟨1, 2965, 2965, "Champion", 0⟩), ("l", ⟨2, 2565, 2565, "Champion", 0⟩)]

def c1Results : List (String × Pos) := [("w", Pos.num 1), ("l", Pos.num 2)]

/-- C1: processing a head-to-head match between ratings 2965 and 2565
commits the winner at rounded rating 3000 but writes league "Champion"
(derived from the unrounded 2999.909…), while classify_league of the
committed rating 3000 is "Master" — the stored league does not equal the
classification of the stored current rating. -/
theorem c1_league_mismatch_eval :
    (dictGet (process_race_results c1Players c1Results true).1 "w").map
        (fun r => (r.current_elo, r.league))
      = some (3000, "Champion")
    ∧ get_league ((3000 : ℤ) : ℝ) = "Master"
    ∧ ("Champion" : String) ≠ "Master" := by
  have hps : raceParticipants c1Players c1Results
      = [⟨"w", 1, Pos.num 1, 2965⟩, ⟨"l", 2, Pos.num 2, 2565⟩] := by decide
  have hnd : ((raceParticipants c1Players c1Results).map Participant.tag).Nodup := by
    rw [hps]
    decide
  have hmem : (⟨"w", 1, Pos.num 1, 2965⟩ : Participant)
      ∈ raceParticipants c1Players c1Results := by
    rw [hps]
    exact List.mem_cons_self _ _
  have hcw := @dictGet_raceEloChanges true _ _ hnd hmem
  have happly := applyAll_lookup c1Players hnd hmem hcw
  have hchg : participantChange true (raceParticipants c1Players c1Results)
      ⟨"w", 1, Pos.num 1, 2965⟩ = 384/11 := by
    rw [hps]
    simp only [participantChange, update_elo_rating, List.filter, List.map,
      List.length_cons, List.length_nil, List.sum_cons, List.sum_nil]
    norm_num
  have hfloor : ⌊((2965 : ℤ) : ℝ) + 384/11⌋ = 2999 := by
    rw [Int.floor_eq_iff]
    constructor <;> push_cast <;> norm_num
  have hpy : pyround (((2965 : ℤ) : ℝ) + 384/11) = 3000 := by
    have hfr : Int.fract (((2965 : ℤ) : ℝ) + 384/11) ≠ 1/2 := by
      rw [← Int.self_sub_floor, hfloor]
      push_cast
      norm_num
    rw [pyround_eq_round hfr, round_eq, Int.floor_eq_iff]
    constructor <;> push_cast <;> norm_num
  have hlg : get_league (((2965 : ℤ) : ℝ) + 384/11) = "Champion" := by
    rw [get_league, if_neg (by push_cast; norm_num), if_pos (by push_cast; norm_num)]
  have happly2 : dictGet (process_race_results c1Players c1Results true).1 "w"
      = Option.map (applyRecFn 2965 (participantChange true
          (raceParticipants c1Players c1Results) ⟨"w", 1, Pos.num 1, 2965⟩))
        (dictGet c1Players "w") := happly
  refine ⟨?_, ?_, by decide⟩
  · rw [happly2, hchg]
    have hget : dictGet c1Players "w" = some ⟨1, 2965, 2965, "Champion", 0⟩ := rfl
    rw [hget, Option.map_some', Option.map_some']
    show some (pyround (((2965 : ℤ) : ℝ) + 384/11),
      get_league (((2965 : ℤ) : ℝ) + 384/11)) = some (3000, "Champion")
    rw [hpy, hlg]
  · rw [get_league, if_pos (by norm_num)]

/-- A participant's snapshotted rating is the stored current rating of the
player it resolved to. -/
theorem participant_old_elo {players : Players} {results : List (String × Pos)}
    {p : Participant} {rec : PlayerRec}
    (hmem : p ∈ raceParticipants players results)
    (hrec : dictGet players p.tag = some rec) : p.old_elo = rec.current_elo := by
  obtain ⟨r, _, rec2, hget, hpe⟩ := mem_raceParticipantsAux hmem
  subst hpe
  have hsame : dictGet players r.1 = some rec := hrec
  rw [hget] at hsame
  injection hsame with h2
  rw [← h2]
  rfl

/-- C4 (amended): applying a race's delta map (process_race_results) and
then reverting it (delete_race) restores each participant's prior
races_played exactly, and restores the prior current rating exactly
provided it is not the case that the unrounded post-race rating (prior
rating plus delta) lies exactly halfway between two integers while the
prior rating is odd — in that corner Python's round-half-to-even commits
to the even neighbour and the revert rounds away from the original value. -/
theorem c4_amended_roundtrip (st : RMState) (race_id : String)
    (players : Players) (results : List (String × Pos)) (is_match : Bool)
    (race : RaceRec) (p : Participant) (rec : PlayerRec)
    (hnd : (results.map Prod.fst).Nodup)
    (hmem : p ∈ raceParticipants players results)
    (hrec : dictGet players p.tag = some rec)
    (hst : st.players = (process_race_results players results is_match).1)
    (hrace : dictGet st.races race_id = some race)
    (hch : race.elo_changes = (process_race_results players results is_match).2)
    (htie : ¬(Int.fract ((rec.current_elo : ℝ)
        + participantChange is_match (raceParticipants players results) p) = 1/2
      ∧ Odd rec.current_elo)) :
    (delete_race st race_id).1 = true
    ∧ (dictGet (delete_race st race_id).2.players p.tag).map
        (fun r => (r.current_elo, r.races_played))
      = some (rec.current_elo, rec.races_played) := by
  have hndtags := @raceParticipants_tags_nodup players _ hnd
  have holde := participant_old_elo hmem hrec
  set ps := raceParticipants players results with hpsdef
  set c := participantChange is_match ps p with hcdef
  have hdel : delete_race st race_id
      = (true, { st with
          players := revertAll race.elo_changes st.players
          races := dictDel st.races race_id }) := by
    simp only [delete_race, hrace]
  have hchanges : (process_race_results players results is_match).2
      = raceEloChanges is_match ps :=
    pyDict_eq_self (by rw [raceEloChanges_keys]; exact hndtags)
  have hrev : dictGet (revertAll race.elo_changes st.players) p.tag
      = (dictGet st.players p.tag).map (revertRecFn c) := by
    rw [hch, hchanges]
    refine revertAll_lookup st.players ?_ ?_
    · show ((raceEloChanges is_match ps).map Prod.fst).Nodup
      rw [show (raceEloChanges is_match ps).map Prod.fst
        = dictKeys (raceEloChanges is_match ps) from rfl, raceEloChanges_keys]
      exact hndtags
    · exact List.mem_map.mpr ⟨p, hmem, rfl⟩
  have happ : dictGet st.players p.tag = some (applyRecFn p.old_elo c rec) := by
    rw [hst]
    have h1 := applyAll_lookup players hndtags hmem
      (@dictGet_raceEloChanges is_match _ _ hndtags hmem)
    have h2 : dictGet (process_race_results players results is_match).1 p.tag
        = (dictGet players p.tag).map (applyRecFn p.old_elo c) := h1
    rw [h2, hrec, Option.map_some']
  constructor
  · rw [hdel]
  · rw [hdel]
    show (dictGet (revertAll race.elo_changes st.players) p.tag).map
        (fun r => (r.current_elo, r.races_played))
      = some (rec.current_elo, rec.races_played)
    rw [hrev, happ, Option.map_some', Option.map_some']
    show some (pyround ((pyround ((p.old_elo : ℝ) + c) : ℝ) - c),
      rec.races_played + 1 - 1) = some (rec.current_elo, rec.races_played)
    rw [holde, pyround_roundtrip rec.current_elo c htie,
      show rec.races_played + 1 - 1 = rec.races_played from by omega]

def c4wPlayers : Players :=
  [("a", ⟨1, 1000, 1000, "Academy", 0⟩), ("b", ⟨2, 1000, 1000, "Academy", 0⟩)]

def c4wResults : List (String × Pos) := [("a", Pos.num 1), ("b", Pos.num 2)]

noncomputable def c4wState : RMState :=
  { players := (process_race_results c4wPlayers c4wResults true).1
    races := [("race_1", ⟨"r", c4wResults,
      (process_race_results c4wPlayers c4wResults true).2, true⟩)]
    matchesD := [] }

/-- C4 witness: a head-to-head race between two players rated 1000 is
applied and then reverted; player "a" ends back at rating 1000 with 0
races played. -/
theorem c4_amended_witness :
    (delete_race c4wState "race_1").1 = true
    ∧ (dictGet (delete_race c4wState "race_1").2.players "a").map
        (fun r => (r.current_elo, r.races_played)) = some (1000, 0) :=
  c4_amended_roundtrip c4wState "race_1" c4wPlayers c4wResults true
    ⟨"r", c4wResults, (process_race_results c4wPlayers c4wResults true).2, true⟩
    ⟨"a", 1, Pos.num 1, 1000⟩ ⟨1, 1000, 1000, "Academy", 0⟩
    (by decide) (by decide) rfl rfl rfl rfl
    (fun hco => by
      have h2 := hco.2
      rw [Int.odd_iff] at h2
      norm_num at h2)

def c4xPlayers : Players :=
  (List.range 65).map (fun i => ("p" ++ toString i, ⟨1, 2001, 2001, "Champion", 0⟩))

def c4xResults : List (String × Pos) :=
  (List.range 65).map (fun i => ("p" ++ toString i, Pos.num ((i : ℤ) + 1)))

def c4xPs : List Participant :=
  (List.range 65).map
    (fun i => ⟨"p" ++ toString i, (i : ℤ) + 1, Pos.num ((i : ℤ) + 1), 2001⟩)

noncomputable def c4xState : RMState :=
  { players := (process_race_results c4xPlayers c4xResults true).1
    races := [("race_1", ⟨"r", c4xResults,
      (process_race_results c4xPlayers c4xResults true).2, true⟩)]
    matchesD := [] }

/-- C4 counterexample: in a 65-entrant match between equally rated players
(all at the odd rating 2001), the entrant finishing 64th receives the delta
-991.5; applying commits round(1009.5) = 1010 (ties to even) and the revert
computes round(1010 + 991.5) = round(2001.5) = 2002 — the prior rating 2001
is not restored. -/
theorem c4_roundtrip_counterexample :
    (dictGet c4xPlayers "p63").map (fun r => r.current_elo) = some 2001
    ∧ (dictGet (delete_race c4xState "race_1").2.players "p63").map
        (fun r => r.current_elo) = some 2002
    ∧ (2002 : ℤ) ≠ 2001 := by
  have hps : raceParticipants c4xPlayers c4xResults = c4xPs := by decide
  have hnd : (c4xResults.map Prod.fst).Nodup := by decide
  have hndtags := @raceParticipants_tags_nodup c4xPlayers _ hnd
  have hmem : (⟨"p63", 64, Pos.num 64, 2001⟩ : Participant)
      ∈ raceParticipants c4xPlayers c4xResults := by
    rw [hps]
    decide
  have hlen : c4xPs.length = 65 := by decide
  have hopp : (c4xPs.filter (fun q => !(q.tag == "p63"))).map
      (fun q => (q.old_elo : ℝ)) = List.replicate 64 ((2001 : ℤ) : ℝ) := by
    rw [List.eq_replicate_iff]
    constructor
    · rw [List.length_map]
      decide
    · intro b hb
      obtain ⟨q, hq, rfl⟩ := List.mem_map.mp hb
      have he : q.old_elo = 2001 :=
        (by decide : ∀ q ∈ c4xPs.filter (fun q => !(q.tag == "p63")),
          q.old_elo = 2001) q hq
      rw [he]
  have hchg : participantChange true c4xPs ⟨"p63", 64, Pos.num 64, 2001⟩
      = -(1983/2) := by
    simp only [participantChange, update_elo_rating, hopp, hlen,
      List.length_replicate, List.map_replicate, List.sum_replicate,
      List.map_nil, List.sum_nil, List.length_nil]
    norm_num [nsmul_eq_mul, Real.rpow_zero]
  have hchg2 : participantChange true (raceParticipants c4xPlayers c4xResults)
      ⟨"p63", 64, Pos.num 64, 2001⟩ = -(1983/2) := by
    rw [hps]
    exact hchg
  have hcw := @dictGet_raceEloChanges true _ _ hndtags hmem
  have happly := applyAll_lookup c4xPlayers hndtags hmem hcw
  have happly2 : dictGet (process_race_results c4xPlayers c4xResults true).1 "p63"
      = Option.map (applyRecFn 2001 (participantChange true
          (raceParticipants c4xPlayers c4xResults) ⟨"p63", 64, Pos.num 64, 2001⟩))
        (dictGet c4xPlayers "p63") := happly
  have hchsimp : (process_race_results c4xPlayers c4xResults true).2
      = raceEloChanges true (raceParticipants c4xPlayers c4xResults) :=
    pyDict_eq_self (by rw [raceEloChanges_keys]; exact hndtags)
  have hrev : dictGet (revertAll (process_race_results c4xPlayers c4xResults true).2
        (process_race_results c4xPlayers c4xResults true).1) "p63"
      = (dictGet (process_race_results c4xPlayers c4xResults true).1 "p63").map
          (revertRecFn (participantChange true
            (raceParticipants c4xPlayers c4xResults)
            ⟨"p63", 64, Pos.num 64, 2001⟩)) := by
    rw [hchsimp]
    refine revertAll_lookup _ ?_ ?_
    · show ((raceEloChanges true (raceParticipants c4xPlayers c4xResults)).map
        Prod.fst).Nodup
      rw [show (raceEloChanges true (raceParticipants c4xPlayers c4xResults)).map
        Prod.fst = dictKeys (raceEloChanges true
          (raceParticipants c4xPlayers c4xResults)) from rfl, raceEloChanges_keys]
      exact hndtags
    · exact List.mem_map.mpr ⟨_, hmem, rfl⟩
  have hfinal : dictGet (delete_race c4xState "race_1").2.players "p63"
      = (dictGet (process_race_results c4xPlayers c4xResults true).1 "p63").map
          (revertRecFn (participantChange true
            (raceParticipants c4xPlayers c4xResults)
            ⟨"p63", 64, Pos.num 64, 2001⟩)) := hrev
  have hget : dictGet c4xPlayers "p63" = some ⟨1, 2001, 2001, "Champion", 0⟩ := by
    decide
  have hpy1 : pyround (((2001 : ℤ) : ℝ) + -(1983/2)) = 1010 := by
    rw [show ((2001 : ℤ) : ℝ) + -(1983/2) = ((1009 : ℤ) : ℝ) + 1/2 by
        push_cast; norm_num,
      pyround_add_half, if_neg (by rw [Int.even_iff]; norm_num)]
    norm_num
  refine ⟨by rw [hget]; rfl, ?_, by decide⟩
  rw [hfinal, happly2, hget, Option.map_some', Option.map_some', hchg2]
  show some (pyround ((pyround (((2001 : ℤ) : ℝ) + -(1983/2)) : ℝ) - -(1983/2)))
    = some (2002 : ℤ)
  rw [hpy1,
    show ((1010 : ℤ) : ℝ) - -(1983/2) = ((2001 : ℤ) : ℝ) + 1/2 by push_cast; norm_num,
    pyround_add_half, if_neg (by rw [Int.even_iff]; norm_num)]
  norm_num

end TMElo
